import Mathlib

/-!
# TableFunctionRemote: the address grammar of `remote('description', db, table)`

A shallow embedding of `dbms/include/DB/TableFunctions/TableFunctionRemote.h`:
`append`, `parseId`, `parseDescription`, `chooseColumns` and `execute`.

Conventions of the embedding.
* A C++ `String` is a `List Char`; `description[pos]` is `charAt description pos`.
* `size_t` values are `Nat`; where the source computes in 64-bit arithmetic that could
  wrap (`parseId`, the product in `append`) the reduction modulo `2^64` is explicit.
  The `int` variables `cnt` and `last_dot` are 32-bit (`toInt32`): they hold every depth
  and every index of a text shorter than `2^31` characters, and the theorems that depend
  on their values state that bound.
* A thrown `Exception` is `Except.error`; the exceptions of the file all carry the code
  `BAD_ARGUMENTS` and are told apart by their message.
* `for` loops are recursions on the number of iterations that remain; the recursion of
  `parseDescription` into a brace group is bounded by a fuel that `expand` sets to the
  length of the text plus one.
* Classes declared outside the file (the AST nodes, `Block`, `StorageDistributed`) are
  modelled by what `execute` and `chooseColumns` read and write of them; the `Cluster`
  constructor, the connection with its stream, and the data type factory are parameters.
  `execute` returns, with its result, the function node and the member `cluster` as the
  call leaves them, also when it throws.
-/

namespace TableFunctionRemote

/-- The C++ `String`: a sequence of characters. -/
abbrev Str := List Char

/-- The exceptions thrown by `append` and `parseDescription`, one constructor for each
message, and `outOfFuel` for a recursion bound of the embedding that ran out. -/
inductive ParseError where
  | incorrectBraceSequence
  | onlyOneDot
  | incorrectLeftNumber
  | incorrectRightNumber
  | leftGreaterThanRight
  | tooManyAddresses
  | outOfFuel
  deriving DecidableEq, Repr

deriving instance DecidableEq for Except

/-- Source line 24: `const size_t MAX_ADDRESSES = 200`. -/
def MAX_ADDRESSES : Nat := 200

/-- The modulus of `size_t` arithmetic, `2^64`. -/
def SIZE_MOD : Nat := 18446744073709551616

/-- The character `description[pos]`; past the end of the text it is the terminating
zero of the C++ string. -/
def charAt (description : Str) (pos : Nat) : Char :=
  description.getD pos (Char.ofNat 0)

/-- The substring `description.substr(pos, len)`. -/
def substr (description : Str) (pos len : Nat) : Str :=
  (description.drop pos).take len

/-- The C library `isdigit` on a character of the text. -/
def isdigit (c : Char) : Bool :=
  decide (48 ≤ c.toNat) && decide (c.toNat ≤ 57)

/-- Modelled from the spec: `toString<uint64>` is declared outside the two source files;
the spec says a range group expands to its numbers "rendered in decimal" with "plain
decimal digits" and no zero padding, which is the shortest decimal rendering. -/
def toStringUInt64 (id : Nat) : Str :=
  Nat.toDigits 10 id

/-- Source lines 109-125, `append`: the cartesian product of two sets of strings,
written over the first argument. The product of the sizes is a `size_t`. -/
def append (to_ what : List Str) : Except ParseError (List Str) :=
  if what.isEmpty then .ok to_
  else if to_.isEmpty then .ok what
  else if (what.length * to_.length) % SIZE_MOD > MAX_ADDRESSES then
    .error .tooManyAddresses
  else .ok (to_.flatMap fun a => what.map fun b => a ++ b)

/-- The loop of `parseId` (source lines 131-138) with `n` iterations left, at position
`pos` with accumulator `res`. `res * 10 + description[pos] - '0'` is evaluated left to
right in `size_t`; `res > 1e15` compares with a double that is the integer `10^15`
exactly, and the conversion of `res` is monotone, so the comparison is that of integers. -/
def parseIdLoop (description : Str) : Nat → Nat → Nat → Option Nat
  | 0, _, res => some res
  | n + 1, pos, res =>
    if !isdigit (charAt description pos) then none
    else
      let res1 := ((res * 10 + (charAt description pos).toNat) % SIZE_MOD
        + (SIZE_MOD - 48)) % SIZE_MOD
      if res1 > 10 ^ 15 then none
      else parseIdLoop description n (pos + 1) res1

/-- Source lines 128-140, `parseId`: the number written in `description[l, r)`;
`none` is the return value `false`. -/
def parseId (description : Str) (l r : Nat) : Option Nat :=
  parseIdLoop description (r - l) l 0

/-- The value of an `int`: the 32-bit two's complement value of an integer. The source
increments and decrements the `int cnt` and stores the index `m`, a `size_t`, in the
`int last_dot`; a value outside the range of `int` is taken to wrap. -/
def toInt32 (x : Int) : Int :=
  (x + 2147483648) % 4294967296 - 2147483648

/-- The variables of the scan for the closing brace (source lines 171-185) when the
scan ends. -/
structure BraceScan where
  m : Nat
  cnt : Int
  last_dot : Int
  have_spliter : Bool
  deriving DecidableEq, Repr

/-- The loop of source lines 178-185 with `n` iterations left (`n = r - m`). -/
def findClosingBrace (description : Str) (spliter : Char) :
    Nat → Nat → Int → Int → Bool → BraceScan
  | 0, m, cnt, last_dot, have_spliter => ⟨m, cnt, last_dot, have_spliter⟩
  | n + 1, m, cnt, last_dot, have_spliter =>
    let cnt1 := if charAt description m = '{' then toInt32 (cnt + 1) else cnt
    let cnt2 := if charAt description m = '}' then toInt32 (cnt1 - 1) else cnt1
    let last_dot1 :=
      if charAt description m = '.' ∧ charAt description (m - 1) = '.' then toInt32 (m : Int)
      else last_dot
    let have_spliter1 := if charAt description m = spliter then true else have_spliter
    if cnt2 = 0 then ⟨m, cnt2, last_dot1, have_spliter1⟩
    else findClosingBrace description spliter n (m + 1) cnt2 last_dot1 have_spliter1

/-- Source lines 190-212: the numeric interval of a group that holds a pair of dots.
The group opens at `i` and closes at `m`; `last_dot` is the right dot of the pair. -/
def parseRange (description : Str) (i m : Nat) (last_dot : Int) :
    Except ParseError (List Str) :=
  if charAt description (last_dot - 1).toNat ≠ '.' then .error .onlyOneDot
  else
    match parseId description (i + 1) (last_dot - 1).toNat with
    | none => .error .incorrectLeftNumber
    | some left =>
      match parseId description (last_dot + 1).toNat m with
      | none => .error .incorrectRightNumber
      | some right =>
        if left > right then .error .leftGreaterThanRight
        else if right - left + 1 > MAX_ADDRESSES then .error .tooManyAddresses
        else .ok ((List.range' left (right + 1 - left)).map toStringUInt64)

/-- Source lines 231-235: the last strings are added to the answer, which is returned
when it has at most `MAX_ADDRESSES` entries. -/
def finish (res cur : List Str) : Except ParseError (List Str) :=
  if (res ++ cur).length > MAX_ADDRESSES then .error .tooManyAddresses
  else .ok (res ++ cur)

/-- The main loop of `parseDescription` (source lines 166-230) at index `i`, with `n`
iterations left at most, the answer `res` and the current set `cur`. `recurse l r` is
the recursive call `parseDescription(description, l, r, spliter)`. -/
def parseLoop (recurse : Nat → Nat → Except ParseError (List Str))
    (description : Str) (spliter : Char) (r : Nat) :
    Nat → Nat → List Str → List Str → Except ParseError (List Str)
  | 0, i, res, cur => if i < r then .error .outOfFuel else finish res cur
  | n + 1, i, res, cur =>
    if i < r then
      if charAt description i = '{' then
        let s := findClosingBrace description spliter (r - (i + 1)) (i + 1) 1 (-1) false
        if s.cnt ≠ 0 then .error .incorrectBraceSequence
        else
          let buffer : Except ParseError (List Str) :=
            if s.last_dot ≠ -1 then parseRange description i s.m s.last_dot
            else if s.have_spliter then recurse (i + 1) s.m
            else .ok [substr description i (s.m - i + 1)]
          match buffer with
          | .error e => .error e
          | .ok buf =>
            match append cur buf with
            | .error e => .error e
            | .ok cur1 => parseLoop recurse description spliter r n (s.m + 1) res cur1
      else if charAt description i = spliter then
        parseLoop recurse description spliter r n (i + 1) (res ++ cur) []
      else
        match append cur [substr description i 1] with
        | .error e => .error e
        | .ok cur1 => parseLoop recurse description spliter r n (i + 1) res cur1
    else finish res cur

/-- Source lines 154-236, `parseDescription(description, l, r, spliter)`, with a bound
`fuel` on the depth of the recursion into brace groups. -/
def parseDescriptionFuel (description : Str) (spliter : Char) :
    Nat → Nat → Nat → Except ParseError (List Str)
  | 0, _, _ => .error .outOfFuel
  | fuel + 1, l, r =>
    if l ≥ r then .ok [[]]
    else
      parseLoop (fun l1 r1 => parseDescriptionFuel description spliter fuel l1 r1)
        description spliter r (r - l) l [] []

/-- `parseDescription(description, l, r, spliter)`: a group nested `k` deep in
`description[l, r)` is at least `k` characters shorter, so `r - l + 1` levels are enough. -/
def parseDescription (description : Str) (l r : Nat) (spliter : Char) :
    Except ParseError (List Str) :=
  parseDescriptionFuel description spliter (r - l + 1) l r

/-- The `expand(text, separator)` of the specification:
`parseDescription(text, 0, text.size(), separator)`, as `execute` calls it. -/
def expand (text : Str) (separator : Char) : Except ParseError (List Str) :=
  parseDescription text 0 text.length separator

/-- Source lines 59-60: the replica pass over the shard tokens, in order; the first
exception ends the construction. -/
def replicaPass : List Str → Except ParseError (List (List Str))
  | [] => .ok []
  | shard :: rest =>
    match expand shard '|' with
    | .error e => .error e
    | .ok replicas =>
      match replicaPass rest with
      | .error e => .error e
      | .ok names => .ok (replicas :: names)

/-- Source lines 57-60 of `execute`: the table `names` of replica names by shard that is
handed to the `Cluster` constructor. -/
def buildNames (descripton : Str) : Except ParseError (List (List Str)) :=
  match expand descripton ',' with
  | .error e => .error e
  | .ok shards => replicaPass shards

/-- Modelled from the spec: `ASTIdentifier::Kind` is declared outside the source files;
an identifier is a column reference by default (source line 53) and `execute` tags the
two identifier arguments with the roles database name and table name. -/
inductive IdentifierKind where
  | Column
  | Database
  | Table
  deriving DecidableEq, Repr

/-- Modelled from the spec: the `Field` value of an `ASTLiteral`, declared outside the
source files; the topology descriptor is a string literal, any other literal holds a
value of another type. -/
inductive Field where
  | string (value : Str)
  | other
  deriving DecidableEq, Repr

/-- Modelled from the spec: an argument node of the inner list, declared outside the
source files: an `ASTLiteral`, an `ASTIdentifier` with its `name` and `kind`, or a node
of another class. -/
inductive Arg where
  | literal (value : Field)
  | identifier (name : Str) (kind : IdentifierKind)
  | other
  deriving DecidableEq, Repr

/-- Modelled from the spec: a child of the function node, declared outside the source
files: the `ASTExpressionList` that groups the arguments, or a node of another class. -/
inductive Node where
  | expressionList (children : List Arg)
  | other
  deriving DecidableEq, Repr

/-- Modelled from the spec: the `ASTFunction` node of the invocation, declared outside
the source files, with its `children`. -/
structure ASTFunction where
  children : List Node
  deriving DecidableEq, Repr

/-- The exceptions that leave `execute`: the arity error of lines 36-46, the
`std::bad_cast` of a `dynamic_cast` to a reference, the failure of `safeGet`, the
exceptions of `parseDescription`, a failure of the `Cluster` constructor, a failure of
the connection or of the query, and a row index outside the column "type". -/
inductive ExecError (ε : Type) where
  | numberOfArgumentsDoesntMatch
  | badCast
  | badGet
  | badArguments (e : ParseError)
  | clusterConstruction (cause : ε)
  | resolution (cause : ε)
  | rowOutOfRange
  deriving DecidableEq, Repr

/-- Modelled from the spec: a `Block` of the response, declared outside the source
files, seen through its two columns "name" and "type", whose fields hold strings. -/
structure Block where
  name : List Str
  type : List Str
  deriving DecidableEq, Repr

/-- Modelled from the spec: the table handle that `StorageDistributed::create` returns,
declared outside the source files: it bundles the name, the columns, the remote database
and table names and the cluster. -/
structure StorageDistributed (κ τ : Type) where
  name : Str
  columns : List (Str × τ)
  remote_database : Str
  remote_table : Str
  cluster : κ
  deriving DecidableEq, Repr

/-- Source line 26: `getName()`. -/
def getName : Str := "remote".toList

/-- The loop of source lines 93-102 over the rows of one block, with `n` iterations left
at row `i`: each row adds the pair of its name and of the data type that the factory
(`getType`) gives for its type name. -/
def decodeRows {ε τ : Type} (getType : Str → τ) (current : Block) :
    Nat → Nat → List (Str × τ) → Except (ExecError ε) (List (Str × τ))
  | 0, _, res => .ok res
  | n + 1, i, res =>
    match current.name[i]?, current.type[i]? with
    | some column_name, some data_type_name =>
      decodeRows getType current n (i + 1) (res ++ [(column_name, getType data_type_name)])
    | _, _ => .error .rowOutOfRange

/-- The loop of source lines 85-103 over the blocks that the stream still holds; the
stream ends with an empty block (`!current`). -/
def readBlocks {ε τ : Type} (getType : Str → τ) :
    List Block → List (Str × τ) → Except (ExecError ε) (List (Str × τ))
  | [], res => .ok res
  | current :: rest, res =>
    match decodeRows getType current current.name.length 0 res with
    | .error e => .error e
    | .ok res1 => readBlocks getType rest res1

/-- Source lines 72-106, `chooseColumns`. The collaborator `remote cluster query` is the
connection to the first pool of the cluster and the stream of the query: it gives the
blocks of the response or fails. The debugging output of line 100 is left out. -/
def chooseColumns {κ ε τ : Type} (remote : κ → Str → Except ε (List Block))
    (getType : Str → τ) (cluster : κ) (database table : Str) :
    Except (ExecError ε) (List (Str × τ)) :=
  let query := "DESC TABLE ".toList ++ database ++ ".".toList ++ table
  match remote cluster query with
  | .error cause => .error (.resolution cause)
  | .ok blocks => readBlocks getType blocks []

/-- What a call of `execute` leaves behind: the value it returns or the exception it
throws, the function node with its arguments, and the member `cluster`. -/
structure ExecOutcome (κ ε τ : Type) where
  result : Except (ExecError ε) (StorageDistributed κ τ)
  ast : ASTFunction
  cluster : Option κ

/-- Source lines 54-55: the function node after the two identifier arguments have been
tagged as database name and table name. -/
def tagIdentifiers (ast_function : ASTFunction) : ASTFunction :=
  match ast_function.children with
  | [.expressionList [a0, .identifier remote_database _, .identifier remote_table _]] =>
    ⟨[.expressionList [a0, .identifier remote_database .Database,
      .identifier remote_table .Table]]⟩
  | _ => ast_function

/-- Source lines 28-66, `execute`, on the function node and the member `cluster`. The
collaborators are parameters: `newCluster` is the `Cluster` constructor, `remote` and
`getType` are those of `chooseColumns`. The argument is a function node, so the cast of
line 34 succeeds; the casts of lines 41-50 throw `std::bad_cast` on a node of another
class, in the order of the source. -/
def execute {κ ε τ : Type} (newCluster : List (List Str) → Except ε κ)
    (remote : κ → Str → Except ε (List Block)) (getType : Str → τ)
    (ast_function : ASTFunction) (cluster : Option κ) : ExecOutcome κ ε τ :=
  if ast_function.children.length ≠ 1 then
    ⟨.error .numberOfArgumentsDoesntMatch, ast_function, cluster⟩
  else
    match ast_function.children with
    | .expressionList args :: _ =>
      if args.length ≠ 3 then ⟨.error .numberOfArgumentsDoesntMatch, ast_function, cluster⟩
      else
        match args with
        | [.literal (.string descripton), .identifier remote_database _,
            .identifier remote_table _] =>
          match buildNames descripton with
          | .error e => ⟨.error (.badArguments e), tagIdentifiers ast_function, cluster⟩
          | .ok names =>
            match newCluster names with
            | .error cause =>
              ⟨.error (.clusterConstruction cause), tagIdentifiers ast_function, cluster⟩
            | .ok cl =>
              match chooseColumns remote getType cl remote_database remote_table with
              | .error e => ⟨.error e, tagIdentifiers ast_function, some cl⟩
              | .ok columns =>
                ⟨.ok ⟨getName, columns, remote_database, remote_table, cl⟩,
                  tagIdentifiers ast_function, some cl⟩
        | .literal .other :: _ => ⟨.error .badGet, ast_function, cluster⟩
        | _ => ⟨.error .badCast, ast_function, cluster⟩
    | _ => ⟨.error .badCast, ast_function, cluster⟩

/-! ## Definitions used by the statements and proofs -/

/-- The brace depth after the character `c`, from the depth `cnt` before it. -/
def braceCnt (c : Char) (cnt : Int) : Int :=
  if c = '}' then toInt32 ((if c = '{' then toInt32 (cnt + 1) else cnt) - 1)
  else if c = '{' then toInt32 (cnt + 1) else cnt

/-- The value of `last_dot` after index `m`. -/
def dotPos (d : Str) (m : Nat) (ld : Int) : Int :=
  if charAt d m = '.' ∧ charAt d (m - 1) = '.' then toInt32 (m : Int) else ld

/-- The value of `have_spliter` after the character `c`. -/
def sepSeen (sp c : Char) (hs : Bool) : Bool :=
  if c = sp then true else hs

/-- The main loop of `parseDescription(description, l, r, spliter)` from index `i` on,
its recursive calls being `parseDescription` itself. -/
def loopAt (d : Str) (sp : Char) (r i : Nat) (res cur : List Str) :
    Except ParseError (List Str) :=
  parseLoop (fun l1 r1 => parseDescription d l1 r1 sp) d sp r (r - i) i res cur

/-- The set of strings a brace group contributes (source lines 190-216), for the scan
result `s` of the group that opens at `i`. -/
def groupBuffer (d : Str) (sp : Char) (i : Nat) (s : BraceScan) :
    Except ParseError (List Str) :=
  if s.last_dot ≠ -1 then parseRange d i s.m s.last_dot
  else if s.have_spliter then parseDescription d (i + 1) s.m sp
  else .ok [substr d i (s.m - i + 1)]

/-- The current set after the literal run `w` has been appended to it character by
character. -/
def appendLit (cur : List Str) (w : Str) : List Str :=
  if w = [] then cur else if cur = [] then [w] else cur.map fun a => a ++ w

/-- The text `s1 ++ sep ++ s2 ++ ... ++ sep ++ sn` of the segments `s1, ..., sn`. -/
def joinWith (sep : Char) : List Str → Str
  | [] => []
  | [s] => s
  | s :: s2 :: rest => s ++ sep :: joinWith sep (s2 :: rest)

/-- The value of `last_dot` after the scan has read the characters `w` that start at
index `m`, the character before them being `p`. -/
def scanDot : Char → Nat → Str → Int → Int
  | _, _, [], ld => ld
  | p, m, c :: w, ld =>
    scanDot c (m + 1) w (if c = '.' ∧ p = '.' then toInt32 (m : Int) else ld)

/-- Whether a text holds two adjacent dots. -/
def hasDotPair : Str → Bool
  | a :: b :: rest => (decide (a = '.') && decide (b = '.')) || hasDotPair (b :: rest)
  | _ => false

/-- The number a string of decimal digits denotes when read after the digits of `acc`. -/
def digitsValueFrom (acc : Nat) (s : Str) : Nat :=
  s.foldl (fun v c => v * 10 + (c.toNat - 48)) acc

/-- The number a string of decimal digits denotes, leading zeros allowed; the empty
string denotes 0. -/
def digitsValue (s : Str) : Nat :=
  digitsValueFrom 0 s

/-- A string of decimal digits. -/
def allDigits (s : Str) : Prop :=
  ∀ c ∈ s, isdigit c = true

instance (s : Str) : Decidable (allDigits s) := by
  unfold allDigits
  exact inferInstance

/-- The number of (shard, replica) pairs of a table of replica names by shard. -/
def totalAddresses (names : List (List Str)) : Nat :=
  (names.map List.length).sum

/-- The change of the brace depth at the character `c`. -/
def braceDelta (c : Char) : Int :=
  if c = '{' then 1 else if c = '}' then -1 else 0

/-- The brace depth of the `k` characters of `d` that start at index `m`. -/
def depthFrom (d : Str) : Nat → Nat → Int
  | _, 0 => 0
  | m, k + 1 => braceDelta (charAt d m) + depthFrom d (m + 1) k

/-- The text has an opening brace with no matching closing brace: it is
`u ++ "{" ++ v` where no prefix of `v` holds more `}` than `{`, so the depth never comes
back to the level before that brace. -/
def UnmatchedOpen (text : Str) : Prop :=
  ∃ u v, text = u ++ '{' :: v ∧ ∀ k, (v.take k).count '}' ≤ (v.take k).count '{'

/-- The brace depth of a text: the number of `{` less the number of `}`, summed
character by character. -/
def braceDepth : Str → Int
  | [] => 0
  | c :: w => braceDelta c + braceDepth w

/-- A text with balanced braces: no prefix holds more `}` than `{`, and the whole text
holds as many `{` as `}`. -/
def Balanced (body : Str) : Prop :=
  (∀ k, k ≤ body.length → (body.take k).count '}' ≤ (body.take k).count '{') ∧
    body.count '{' = body.count '}'

instance (body : Str) : Decidable (Balanced body) := by
  unfold Balanced
  exact inferInstance

/-- The values of the sum `res * 10 + description[pos]`, before any reduction modulo
`2^64`, that the iterations of the loop of `parseId` compute, in order; it follows
`parseIdLoop` step by step. -/
def parseIdSteps (description : Str) : Nat → Nat → Nat → List Nat
  | 0, _, _ => []
  | n + 1, pos, res =>
    if !isdigit (charAt description pos) then []
    else
      let res1 := ((res * 10 + (charAt description pos).toNat) % SIZE_MOD
        + (SIZE_MOD - 48)) % SIZE_MOD
      (res * 10 + (charAt description pos).toNat) ::
        (if res1 > 10 ^ 15 then [] else parseIdSteps description n (pos + 1) res1)

/-- Modelled from the spec: the Cartesian append of section 4.1 with no address limit:
`to` when `what` is empty, `what` when `to` is empty, otherwise the product in nested
order (`append` with the check of source line 117 left out). -/
def appendUnbounded (to_ what : List Str) : List Str :=
  if what.isEmpty then to_
  else if to_.isEmpty then what
  else to_.flatMap fun a => what.map fun b => a ++ b

/-- Modelled from the spec: the numeric range of a group with no address limit (the
check of source line 208 left out); the grammar errors are those of `parseRange`. -/
def parseRangeUnbounded (description : Str) (i m : Nat) (last_dot : Int) :
    Except ParseError (List Str) :=
  if charAt description (last_dot - 1).toNat ≠ '.' then .error .onlyOneDot
  else
    match parseId description (i + 1) (last_dot - 1).toNat with
    | none => .error .incorrectLeftNumber
    | some left =>
      match parseId description (last_dot + 1).toNat m with
      | none => .error .incorrectRightNumber
      | some right =>
        if left > right then .error .leftGreaterThanRight
        else .ok ((List.range' left (right + 1 - left)).map toStringUInt64)

/-- Modelled from the spec: the main loop of the expansion with no address limit: the
loop of `parseLoop` with `appendUnbounded` for `append`, `parseRangeUnbounded` for
`parseRange` and no size check at the end (source line 232 left out). -/
def parseLoopUnbounded (recurse : Nat → Nat → Except ParseError (List Str))
    (description : Str) (spliter : Char) (r : Nat) :
    Nat → Nat → List Str → List Str → Except ParseError (List Str)
  | 0, i, res, cur => if i < r then .error .outOfFuel else .ok (res ++ cur)
  | n + 1, i, res, cur =>
    if i < r then
      if charAt description i = '{' then
        let s := findClosingBrace description spliter (r - (i + 1)) (i + 1) 1 (-1) false
        if s.cnt ≠ 0 then .error .incorrectBraceSequence
        else
          let buffer : Except ParseError (List Str) :=
            if s.last_dot ≠ -1 then parseRangeUnbounded description i s.m s.last_dot
            else if s.have_spliter then recurse (i + 1) s.m
            else .ok [substr description i (s.m - i + 1)]
          match buffer with
          | .error e => .error e
          | .ok buf =>
            parseLoopUnbounded recurse description spliter r n (s.m + 1) res
              (appendUnbounded cur buf)
      else if charAt description i = spliter then
        parseLoopUnbounded recurse description spliter r n (i + 1) (res ++ cur) []
      else
        parseLoopUnbounded recurse description spliter r n (i + 1) res
          (appendUnbounded cur [substr description i 1])
    else .ok (res ++ cur)

/-- Modelled from the spec: the expansion of `description[l, r)` with no address limit,
with the bound `fuel` of `parseDescriptionFuel` on the depth of the recursion. -/
def parseDescriptionUnboundedFuel (description : Str) (spliter : Char) :
    Nat → Nat → Nat → Except ParseError (List Str)
  | 0, _, _ => .error .outOfFuel
  | fuel + 1, l, r =>
    if l ≥ r then .ok [[]]
    else
      parseLoopUnbounded
        (fun l1 r1 => parseDescriptionUnboundedFuel description spliter fuel l1 r1)
        description spliter r (r - l) l [] []

/-- Modelled from the spec: the complete expansion of a text, the list that the
procedure of section 4.1 builds when no address limit stops it. It is the list against
which a list that `expand` returns is complete or truncated. -/
def expandUnbounded (text : Str) (separator : Char) : Except ParseError (List Str) :=
  parseDescriptionUnboundedFuel text separator (text.length - 0 + 1) 0 text.length

/-- The outcome `x` of a run with the address limit against the outcome `y` of the same
run without it: a list that the limited run returns is the list of the unlimited run,
and an exception of the limited run is the address-limit exception or the exception of
the unlimited run. -/
def LimitOnly (x y : Except ParseError (List Str)) : Prop :=
  match x with
  | .ok out => y = .ok out
  | .error e => e = .tooManyAddresses ∨ y = .error e

/-! ## Theorems -/

theorem finish_ok_length {res cur out : List Str} (h : finish res cur = .ok out) :
    out.length ≤ MAX_ADDRESSES := by
  unfold finish at h
  split at h
  · cases h
  · cases h; omega

theorem parseLoop_ok_length (recurse : Nat → Nat → Except ParseError (List Str))
    (d : Str) (sp : Char) (r : Nat) :
    ∀ (n i : Nat) (res cur out : List Str),
      parseLoop recurse d sp r n i res cur = .ok out → out.length ≤ MAX_ADDRESSES := by
  intro n
  induction n with
  | zero =>
    intro i res cur out h
    simp only [parseLoop] at h
    split at h
    · cases h
    · exact finish_ok_length h
  | succ n ih =>
    intro i res cur out h
    simp only [parseLoop] at h
    split at h
    · split at h
      · split at h
        · cases h
        · split at h
          · cases h
          · split at h
            · cases h
            · exact ih _ _ _ _ h
      · split at h
        · exact ih _ _ _ _ h
        · split at h
          · cases h
          · exact ih _ _ _ _ h
    · exact finish_ok_length h

theorem parseDescriptionFuel_ok_length (d : Str) (sp : Char) (fuel l r : Nat)
    (out : List Str) (h : parseDescriptionFuel d sp fuel l r = .ok out) :
    out.length ≤ MAX_ADDRESSES := by
  cases fuel with
  | zero => simp [parseDescriptionFuel] at h
  | succ f =>
    simp only [parseDescriptionFuel] at h
    split at h
    · cases h; simp [MAX_ADDRESSES]
    · exact parseLoop_ok_length _ _ _ _ _ _ _ _ _ h


theorem findClosingBrace_succ (d : Str) (sp : Char) (n m : Nat) (cnt ld : Int) (hs : Bool) :
    findClosingBrace d sp (n + 1) m cnt ld hs =
      if braceCnt (charAt d m) cnt = 0 then
        ⟨m, braceCnt (charAt d m) cnt, dotPos d m ld, sepSeen sp (charAt d m) hs⟩
      else findClosingBrace d sp n (m + 1) (braceCnt (charAt d m) cnt) (dotPos d m ld)
        (sepSeen sp (charAt d m) hs) := rfl

theorem findClosingBrace_bounds (d : Str) (sp : Char) :
    ∀ (n m : Nat) (cnt ld : Int) (hs : Bool),
      m ≤ (findClosingBrace d sp n m cnt ld hs).m ∧
      (findClosingBrace d sp n m cnt ld hs).m ≤ m + n ∧
      (cnt ≠ 0 → (findClosingBrace d sp n m cnt ld hs).cnt = 0 →
        (findClosingBrace d sp n m cnt ld hs).m < m + n) := by
  intro n
  induction n with
  | zero =>
    intro m cnt ld hs
    simp only [findClosingBrace]
    refine ⟨le_refl _, le_refl _, ?_⟩
    intro h1 h2
    exact absurd h2 h1
  | succ n ih =>
    intro m cnt ld hs
    rw [findClosingBrace_succ]
    by_cases hc : braceCnt (charAt d m) cnt = 0
    · rw [if_pos hc]
      refine ⟨le_refl _, ?_, ?_⟩
      · show m ≤ m + (n + 1)
        omega
      · intro _ _
        show m < m + (n + 1)
        omega
    · rw [if_neg hc]
      obtain ⟨h1, h2, h3⟩ := ih (m + 1) (braceCnt (charAt d m) cnt) (dotPos d m ld)
        (sepSeen sp (charAt d m) hs)
      refine ⟨by omega, by omega, ?_⟩
      intro _ h0
      have := h3 hc h0
      omega

theorem closing_lt (d : Str) (sp : Char) (r i : Nat) (hi : i < r)
    (h : (findClosingBrace d sp (r - (i + 1)) (i + 1) 1 (-1) false).cnt = 0) :
    i < (findClosingBrace d sp (r - (i + 1)) (i + 1) 1 (-1) false).m ∧
    (findClosingBrace d sp (r - (i + 1)) (i + 1) 1 (-1) false).m < r := by
  obtain ⟨h1, _, h3⟩ := findClosingBrace_bounds d sp (r - (i + 1)) (i + 1) 1 (-1) false
  have := h3 (by decide) h
  omega

theorem parseLoop_counter (recurse : Nat → Nat → Except ParseError (List Str))
    (d : Str) (sp : Char) (r : Nat) :
    ∀ (n n1 i : Nat) (res cur : List Str), r - i ≤ n → r - i ≤ n1 →
      parseLoop recurse d sp r n i res cur = parseLoop recurse d sp r n1 i res cur := by
  intro n
  induction n with
  | zero =>
    intro n1 i res cur h _
    have hi : ¬ i < r := by omega
    cases n1 <;> simp [parseLoop, hi]
  | succ n ih =>
    intro n1 i res cur h h1
    by_cases hi : i < r
    · obtain ⟨k, rfl⟩ : ∃ k, n1 = k + 1 := ⟨n1 - 1, by omega⟩
      simp only [parseLoop, hi, if_true]
      split
      · split
        · rfl
        · rename_i hc
          have hc0 := not_not.mp hc
          have hm := closing_lt d sp r i hi hc0
          split
          · rfl
          · split
            · rfl
            · exact ih _ _ _ _ (by omega) (by omega)
      · split
        · exact ih _ _ _ _ (by omega) (by omega)
        · split
          · rfl
          · exact ih _ _ _ _ (by omega) (by omega)
    · cases n1 <;> simp [parseLoop, hi]

theorem parseLoop_congr (rec1 rec2 : Nat → Nat → Except ParseError (List Str))
    (d : Str) (sp : Char) (r : Nat) :
    ∀ (n i : Nat) (res cur : List Str),
      (∀ i1 m, i ≤ i1 → i1 < m → m < r → rec1 (i1 + 1) m = rec2 (i1 + 1) m) →
      parseLoop rec1 d sp r n i res cur = parseLoop rec2 d sp r n i res cur := by
  intro n
  induction n with
  | zero => intro i res cur _; simp [parseLoop]
  | succ n ih =>
    intro i res cur hrec
    simp only [parseLoop]
    split
    · rename_i hi
      split
      · split
        · rfl
        · rename_i hc
          have hc0 := not_not.mp hc
          have hm := closing_lt d sp r i hi hc0
          rw [hrec i _ (le_refl _) hm.1 hm.2]
          split
          · rfl
          · split
            · rfl
            · exact ih _ _ _ (fun i1 m h1 h2 h3 => hrec i1 m (by omega) h2 h3)
      · split
        · exact ih _ _ _ (fun i1 m h1 h2 h3 => hrec i1 m (by omega) h2 h3)
        · split
          · rfl
          · exact ih _ _ _ (fun i1 m h1 h2 h3 => hrec i1 m (by omega) h2 h3)
    · rfl

theorem parseDescriptionFuel_fuel (d : Str) (sp : Char) :
    ∀ (f1 f2 l r : Nat), r - l + 1 ≤ f1 → r - l + 1 ≤ f2 →
      parseDescriptionFuel d sp f1 l r = parseDescriptionFuel d sp f2 l r := by
  intro f1
  induction f1 with
  | zero => intro f2 l r h; omega
  | succ g1 ih =>
    intro f2 l r h1 h2
    obtain ⟨g2, rfl⟩ : ∃ k, f2 = k + 1 := ⟨f2 - 1, by omega⟩
    simp only [parseDescriptionFuel]
    split
    · rfl
    · exact parseLoop_congr _ _ d sp r _ _ _ _
        (fun i1 m h3 h4 h5 => ih g2 (i1 + 1) m (by omega) (by omega))


theorem parseDescription_eq (d : Str) (sp : Char) (l r : Nat) :
    parseDescription d l r sp = if l ≥ r then .ok [[]] else loopAt d sp r l [] [] := by
  unfold parseDescription loopAt
  simp only [parseDescriptionFuel]
  split
  · rfl
  · apply parseLoop_congr
    intro i1 m h1 h2 h3
    unfold parseDescription
    exact parseDescriptionFuel_fuel d sp _ _ _ _ (by omega) (by omega)

theorem loopAt_end (d : Str) (sp : Char) (r i : Nat) (res cur : List Str) (h : ¬ i < r) :
    loopAt d sp r i res cur = finish res cur := by
  unfold loopAt
  cases hn : r - i <;> simp [parseLoop, h]

theorem loopAt_sep (d : Str) (sp : Char) (r i : Nat) (res cur : List Str) (h : i < r)
    (h1 : charAt d i ≠ '{') (h2 : charAt d i = sp) :
    loopAt d sp r i res cur = loopAt d sp r (i + 1) (res ++ cur) [] := by
  subst h2
  unfold loopAt
  obtain ⟨k, hk⟩ : ∃ k, r - i = k + 1 := ⟨r - i - 1, by omega⟩
  rw [hk]
  simp only [parseLoop, h, h1, if_true, if_false]
  apply parseLoop_counter <;> omega

theorem loopAt_lit (d : Str) (sp : Char) (r i : Nat) (res cur : List Str) (h : i < r)
    (h1 : charAt d i ≠ '{') (h2 : charAt d i ≠ sp) :
    loopAt d sp r i res cur =
      match append cur [substr d i 1] with
      | .error e => .error e
      | .ok cur1 => loopAt d sp r (i + 1) res cur1 := by
  unfold loopAt
  obtain ⟨k, hk⟩ : ∃ k, r - i = k + 1 := ⟨r - i - 1, by omega⟩
  rw [hk]
  simp only [parseLoop, h, h1, h2, if_true, if_false]
  split
  · rfl
  · apply parseLoop_counter <;> omega

theorem loopAt_brace (d : Str) (sp : Char) (r i : Nat) (res cur : List Str) (h : i < r)
    (h1 : charAt d i = '{') :
    loopAt d sp r i res cur =
      if (findClosingBrace d sp (r - (i + 1)) (i + 1) 1 (-1) false).cnt ≠ 0 then
        .error .incorrectBraceSequence
      else
        match groupBuffer d sp i (findClosingBrace d sp (r - (i + 1)) (i + 1) 1 (-1) false) with
        | .error e => .error e
        | .ok buf =>
          match append cur buf with
          | .error e => .error e
          | .ok cur1 =>
            loopAt d sp r ((findClosingBrace d sp (r - (i + 1)) (i + 1) 1 (-1) false).m + 1)
              res cur1 := by
  unfold loopAt
  obtain ⟨k, hk⟩ : ∃ k, r - i = k + 1 := ⟨r - i - 1, by omega⟩
  rw [hk]
  simp only [parseLoop, h, h1, if_true]
  split
  · rfl
  · rename_i hc
    have hm := closing_lt d sp r i h (not_not.mp hc)
    unfold groupBuffer
    split
    · rfl
    · split
      · rfl
      · apply parseLoop_counter <;> omega

theorem append_ne_outOfFuel (a b : List Str) : append a b ≠ .error .outOfFuel := by
  unfold append
  split
  · simp
  · split
    · simp
    · split <;> simp

theorem parseRange_ne_outOfFuel (d : Str) (i m : Nat) (ld : Int) :
    parseRange d i m ld ≠ .error .outOfFuel := by
  unfold parseRange
  split
  · simp
  · split
    · simp
    · split
      · simp
      · split
        · simp
        · split <;> simp

theorem finish_ne_outOfFuel (a b : List Str) : finish a b ≠ .error .outOfFuel := by
  unfold finish
  split <;> simp

theorem loopAt_ne_outOfFuel (d : Str) (sp : Char) (r : Nat)
    (hrec : ∀ l1 r1, r1 < r → parseDescription d l1 r1 sp ≠ .error .outOfFuel) :
    ∀ (k i : Nat) (res cur : List Str), r - i ≤ k →
      loopAt d sp r i res cur ≠ .error .outOfFuel := by
  intro k
  induction k with
  | zero =>
    intro i res cur hk
    rw [loopAt_end d sp r i res cur (by omega)]
    exact finish_ne_outOfFuel _ _
  | succ k ih =>
    intro i res cur hk
    by_cases hi : i < r
    · by_cases hb : charAt d i = '{'
      · rw [loopAt_brace d sp r i res cur hi hb]
        split
        · simp
        · rename_i hc
          have hm := closing_lt d sp r i hi (not_not.mp hc)
          split
          · rename_i e he
            intro hcontra
            injection hcontra with hcontra
            subst hcontra
            revert he
            unfold groupBuffer
            split
            · exact parseRange_ne_outOfFuel _ _ _ _
            · split
              · exact hrec _ _ hm.2
              · simp
          · split
            · rename_i e he
              intro hcontra
              injection hcontra with hcontra
              subst hcontra
              exact append_ne_outOfFuel _ _ he
            · exact ih _ _ _ (by omega)
      · by_cases hs : charAt d i = sp
        · rw [loopAt_sep d sp r i res cur hi hb hs]
          exact ih _ _ _ (by omega)
        · rw [loopAt_lit d sp r i res cur hi hb hs]
          split
          · rename_i e he
            intro hcontra
            injection hcontra with hcontra
            subst hcontra
            exact append_ne_outOfFuel _ _ he
          · exact ih _ _ _ (by omega)
    · rw [loopAt_end d sp r i res cur hi]
      exact finish_ne_outOfFuel _ _

theorem parseDescription_ne_outOfFuel (d : Str) (sp : Char) :
    ∀ (r l : Nat), parseDescription d l r sp ≠ .error .outOfFuel := by
  intro r
  induction r using Nat.strong_induction_on with
  | _ r ih =>
    intro l
    rw [parseDescription_eq]
    split
    · simp
    · exact loopAt_ne_outOfFuel d sp r (fun l1 r1 h => ih r1 h l1) (r - l) l [] [] (le_refl _)

theorem parseDescription_ok_length (d : Str) (sp : Char) (l r : Nat) (out : List Str)
    (h : parseDescription d l r sp = .ok out) : out.length ≤ MAX_ADDRESSES :=
  parseDescriptionFuel_ok_length d sp _ l r out h


theorem charAt_at (a : Str) (c : Char) (b : Str) : charAt (a ++ c :: b) a.length = c := by
  unfold charAt
  rw [List.getD_eq_getElem?_getD, List.getElem?_append_right (le_refl _)]
  simp

theorem flatMap_single {α β : Type} (f : α → β) (l : List α) :
    (l.flatMap fun a => [f a]) = l.map f := by
  induction l with
  | nil => rfl
  | cons x xs ih => simp [List.flatMap_cons, ih]

theorem charAt_append_left (a b : Str) (j : Nat) (h : j < a.length) :
    charAt (a ++ b) j = charAt a j := by
  simp [charAt, List.getD_eq_getElem?_getD, List.getElem?_append_left h]

theorem substr_one (a : Str) (c : Char) (b : Str) : substr (a ++ c :: b) a.length 1 = [c] := by
  simp [substr]

theorem substr_mid (a w b : Str) : substr (a ++ (w ++ b)) a.length w.length = w := by
  simp [substr]

theorem append_single (cur : List Str) (x : Str) (h : cur.length ≤ MAX_ADDRESSES) :
    append cur [x] = .ok (if cur = [] then [x] else cur.map fun a => a ++ x) := by
  unfold append
  have h1 : (1 * cur.length) % SIZE_MOD = cur.length := by
    unfold MAX_ADDRESSES at h
    unfold SIZE_MOD
    omega
  cases cur with
  | nil => simp
  | cons y ys =>
    have h2 : ¬ (([x] : List Str).length * (y :: ys).length % SIZE_MOD > MAX_ADDRESSES) := by
      simp only [List.length_singleton]
      rw [h1]
      omega
    simp only [List.isEmpty_cons, Bool.false_eq_true, if_false, h2]
    have := flatMap_single (fun a => a ++ x) (y :: ys)
    simp only [List.map_cons, List.map_nil] at this ⊢
    simp [this]

theorem appendLit_length (cur : List Str) (w : Str) (h : cur.length ≤ MAX_ADDRESSES) :
    (appendLit cur w).length ≤ MAX_ADDRESSES := by
  unfold appendLit
  split
  · exact h
  · split
    · simp [MAX_ADDRESSES]
    · simpa using h

theorem loopAt_litRun (sp : Char) (w : Str) (hb : '{' ∉ w) (hs : sp ∉ w) :
    ∀ (a b : Str) (r : Nat) (res cur : List Str), a.length + w.length ≤ r →
      cur.length ≤ MAX_ADDRESSES →
      loopAt (a ++ (w ++ b)) sp r a.length res cur =
        loopAt (a ++ (w ++ b)) sp r (a.length + w.length) res (appendLit cur w) := by
  induction w with
  | nil => intro a b r res cur _ _; simp [appendLit]
  | cons c w ih =>
    intro a b r res cur hr hcur
    have hc1 : c ≠ '{' := fun h => hb (by simp [h])
    have hc2 : c ≠ sp := fun h => hs (by simp [h])
    have hb1 : '{' ∉ w := fun h => hb (List.mem_cons_of_mem _ h)
    have hs1 : sp ∉ w := fun h => hs (List.mem_cons_of_mem _ h)
    simp only [List.length_cons] at hr
    have hat : charAt (a ++ (c :: w ++ b)) a.length = c := charAt_at a c (w ++ b)
    rw [loopAt_lit _ sp r a.length res cur (by omega) (by rw [hat]; exact hc1)
      (by rw [hat]; exact hc2)]
    have hsub : substr (a ++ (c :: w ++ b)) a.length 1 = [c] := substr_one a c (w ++ b)
    rw [hsub, append_single cur [c] hcur]
    have hd : a ++ (c :: w ++ b) = (a ++ [c]) ++ (w ++ b) := by simp
    have hcur1 : (if cur = [] then [[c]] else cur.map fun x => x ++ [c]).length
        ≤ MAX_ADDRESSES := by
      split
      · simp [MAX_ADDRESSES]
      · simpa using hcur
    have key := ih hb1 hs1 (a ++ [c]) b r res
      (if cur = [] then [[c]] else cur.map fun x => x ++ [c])
      (by simp only [List.length_append, List.length_singleton]; omega) hcur1
    simp only [List.length_append, List.length_singleton] at key
    show loopAt (a ++ (c :: w ++ b)) sp r (a.length + 1) res _ = _
    rw [hd, key]
    have e1 : a.length + 1 + w.length = a.length + (c :: w).length := by
      simp only [List.length_cons]; omega
    rw [e1]
    congr 1
    unfold appendLit
    by_cases hw : w = []
    · subst hw
      by_cases hcu : cur = []
      · simp [hcu]
      · simp [hcu]
    · by_cases hcu : cur = []
      · simp [hcu, hw]
      · simp [hcu, hw, List.map_map]

theorem finish_flush (res cur : List Str) : finish res cur = finish (res ++ cur) [] := by
  simp [finish]

theorem loopAt_segments (sp : Char) (hsp : sp ≠ '{') :
    ∀ (segs : List Str), segs ≠ [] → (∀ s ∈ segs, s ≠ [] ∧ '{' ∉ s ∧ sp ∉ s) →
      ∀ (a b : Str) (res : List Str),
        loopAt (a ++ (joinWith sp segs ++ b)) sp (a.length + (joinWith sp segs).length)
          a.length res [] = finish (res ++ segs) [] := by
  intro segs
  induction segs with
  | nil => intro h; exact absurd rfl h
  | cons s rest ih =>
    intro _ hall a b res
    obtain ⟨hne, hb, hs⟩ := hall s (by simp)
    cases rest with
    | nil =>
      simp only [joinWith]
      rw [loopAt_litRun sp s hb hs a b _ res [] (le_refl _) (by simp [MAX_ADDRESSES])]
      rw [loopAt_end _ _ _ _ _ _ (by omega)]
      rw [finish_flush]
      simp [appendLit, hne]
    | cons s2 rest =>
      simp only [joinWith]
      have hd : a ++ (s ++ sp :: joinWith sp (s2 :: rest) ++ b) =
          a ++ (s ++ (sp :: (joinWith sp (s2 :: rest) ++ b))) := by simp
      rw [hd]
      rw [loopAt_litRun sp s hb hs a _ _ res []
        (by simp only [List.length_append, List.length_cons]; omega)
        (by simp [MAX_ADDRESSES])]
      have hd2 : a ++ (s ++ (sp :: (joinWith sp (s2 :: rest) ++ b))) =
          (a ++ s) ++ (sp :: (joinWith sp (s2 :: rest) ++ b)) := by simp
      have hat : charAt (a ++ (s ++ (sp :: (joinWith sp (s2 :: rest) ++ b))))
          (a.length + s.length) = sp := by
        rw [hd2, ← List.length_append]
        exact charAt_at _ _ _
      rw [loopAt_sep _ sp _ _ _ _
        (by simp only [List.length_append, List.length_cons]; omega)
        (by rw [hat]; exact hsp) hat]
      have hd3 : a ++ (s ++ (sp :: (joinWith sp (s2 :: rest) ++ b))) =
          (a ++ (s ++ [sp])) ++ (joinWith sp (s2 :: rest) ++ b) := by simp
      have key := ih (by simp) (fun x hx => hall x (List.mem_cons_of_mem _ hx))
        (a ++ (s ++ [sp])) b (res ++ appendLit [] s)
      simp only [List.length_append, List.length_singleton] at key
      rw [hd3]
      have e1 : a.length + (s ++ sp :: joinWith sp (s2 :: rest)).length =
          a.length + (s.length + 1) + (joinWith sp (s2 :: rest)).length := by
        simp only [List.length_append, List.length_cons]; omega
      have e2 : a.length + s.length + 1 = a.length + (s.length + 1) := by omega
      rw [e1, e2, key]
      simp [appendLit, hne]

theorem joinWith_ne_nil (sp : Char) (segs : List Str) (h : segs ≠ [])
    (hall : ∀ s ∈ segs, s ≠ []) : joinWith sp segs ≠ [] := by
  cases segs with
  | nil => exact absurd rfl h
  | cons s rest =>
    cases rest with
    | nil => simpa [joinWith] using hall s (by simp)
    | cons s2 rest => simp [joinWith]

theorem expand_eq_loopAt (text : Str) (sp : Char) (h : text ≠ []) :
    expand text sp = loopAt text sp text.length 0 [] [] := by
  unfold expand
  rw [parseDescription_eq]
  have : 0 < text.length := List.length_pos.mpr h
  simp only [ge_iff_le, Nat.le_zero_eq]
  rw [if_neg (by omega)]

theorem toInt32_eq (x : Int) (h1 : -2147483648 ≤ x) (h2 : x < 2147483648) : toInt32 x = x := by
  unfold toInt32
  omega

theorem toInt32_index (m : Nat) (h : m < 2147483648) : toInt32 (m : Int) = (m : Int) :=
  toInt32_eq _ (by omega) (by omega)

theorem braceCnt_close_one : braceCnt '}' 1 = 0 := by
  decide

theorem charAt_pred (a0 : Str) (p : Char) (b : Str) :
    charAt ((a0 ++ [p]) ++ b) ((a0 ++ [p]).length - 1) = p := by
  have h : (a0 ++ [p]) ++ b = a0 ++ p :: b := by simp
  have h2 : (a0 ++ [p]).length - 1 = a0.length := by simp
  rw [h, h2]
  exact charAt_at a0 p b

theorem findClosingBrace_run (sp : Char) (w : Str) (hb1 : '{' ∉ w) (hb2 : '}' ∉ w) :
    ∀ (a0 : Str) (p : Char) (b : Str) (n : Nat) (cnt ld : Int) (hs : Bool), cnt ≠ 0 →
      findClosingBrace ((a0 ++ [p]) ++ (w ++ b)) sp (w.length + n) (a0 ++ [p]).length
          cnt ld hs =
        findClosingBrace ((a0 ++ [p]) ++ (w ++ b)) sp n ((a0 ++ [p]).length + w.length)
          cnt (scanDot p (a0 ++ [p]).length w ld) (hs || decide (sp ∈ w)) := by
  induction w with
  | nil => intro a0 p b n cnt ld hs _; simp [scanDot]
  | cons c w ih =>
    intro a0 p b n cnt ld hs hcnt
    have hc1 : c ≠ '{' := fun h => hb1 (by simp [h])
    have hc2 : c ≠ '}' := fun h => hb2 (by simp [h])
    have hw1 : '{' ∉ w := fun h => hb1 (List.mem_cons_of_mem _ h)
    have hw2 : '}' ∉ w := fun h => hb2 (List.mem_cons_of_mem _ h)
    have e1 : (c :: w).length + n = (w.length + n) + 1 := by
      simp only [List.length_cons]; omega
    rw [e1, findClosingBrace_succ]
    have hat : charAt ((a0 ++ [p]) ++ (c :: w ++ b)) (a0 ++ [p]).length = c :=
      charAt_at _ c (w ++ b)
    have hpred : charAt ((a0 ++ [p]) ++ (c :: w ++ b)) ((a0 ++ [p]).length - 1) = p :=
      charAt_pred a0 p _
    have hbc : braceCnt c cnt = cnt := by simp [braceCnt, hc1, hc2]
    rw [hat, hbc, if_neg hcnt]
    have hd : (a0 ++ [p]) ++ (c :: w ++ b) = ((a0 ++ [p]) ++ [c]) ++ (w ++ b) := by simp
    have key := ih hw1 hw2 (a0 ++ [p]) c b n cnt
      (dotPos ((a0 ++ [p]) ++ (c :: w ++ b)) (a0 ++ [p]).length ld) (sepSeen sp c hs) hcnt
    rw [← hd] at key
    have e2 : ((a0 ++ [p]) ++ [c]).length = (a0 ++ [p]).length + 1 := by simp
    rw [e2] at key
    rw [key]
    have e3 : (a0 ++ [p]).length + 1 + w.length = (a0 ++ [p]).length + (c :: w).length := by
      simp only [List.length_cons]; omega
    rw [e3]
    have e4 : dotPos ((a0 ++ [p]) ++ (c :: w ++ b)) (a0 ++ [p]).length ld =
        (if c = '.' ∧ p = '.' then toInt32 ((a0 ++ [p]).length : Int) else ld) := by
      unfold dotPos
      rw [hat, hpred]
    have e5 : (sepSeen sp c hs || decide (sp ∈ w)) = (hs || decide (sp ∈ c :: w)) := by
      unfold sepSeen
      by_cases hcs : c = sp
      · subst hcs; simp
      · have : ¬ sp = c := fun h => hcs h.symm
        simp [hcs, this]
    rw [e4, e5]
    rfl

theorem findClosingBrace_group (sp : Char) (hsp : sp ≠ '}') (a body post : Str)
    (hb1 : '{' ∉ body) (hb2 : '}' ∉ body) (r : Nat)
    (hr : a.length + 1 + body.length + 1 ≤ r) :
    findClosingBrace (a ++ ('{' :: (body ++ ('}' :: post)))) sp (r - (a.length + 1))
        (a.length + 1) 1 (-1) false =
      ⟨a.length + 1 + body.length, 0, scanDot '{' (a.length + 1) body (-1),
        decide (sp ∈ body)⟩ := by
  obtain ⟨n, hn⟩ : ∃ n, r - (a.length + 1) = body.length + (n + 1) :=
    ⟨r - (a.length + 1) - body.length - 1, by omega⟩
  have hd : a ++ ('{' :: (body ++ ('}' :: post))) = (a ++ ['{']) ++ (body ++ ('}' :: post)) := by
    simp
  have hl : (a ++ ['{']).length = a.length + 1 := by simp
  rw [hn, hd, ← hl, findClosingBrace_run sp body hb1 hb2 a '{' _ (n + 1) 1 (-1) false
    (by decide)]
  rw [findClosingBrace_succ]
  have hd2 : (a ++ ['{']) ++ (body ++ ('}' :: post)) = ((a ++ ['{']) ++ body) ++ ('}' :: post) := by
    simp
  have hat : charAt ((a ++ ['{']) ++ (body ++ ('}' :: post)))
      ((a ++ ['{']).length + body.length) = '}' := by
    rw [hd2, ← List.length_append]
    exact charAt_at _ _ _
  rw [hat]
  rw [braceCnt_close_one, if_pos rfl]
  have hdp : ∀ x : Int, dotPos ((a ++ ['{']) ++ (body ++ ('}' :: post)))
      ((a ++ ['{']).length + body.length) x = x := by
    intro x
    unfold dotPos
    rw [hat]
    simp
  rw [hdp]
  have hss : sepSeen sp '}' (false || decide (sp ∈ body)) = decide (sp ∈ body) := by
    unfold sepSeen
    have : ¬ '}' = sp := fun h => hsp h.symm
    simp [this]
  rw [hss]

theorem scanDot_none (w : Str) :
    ∀ (p : Char) (m : Nat) (ld : Int), hasDotPair (p :: w) = false →
      scanDot p m w ld = ld := by
  induction w with
  | nil => intro p m ld _; rfl
  | cons c w ih =>
    intro p m ld h
    simp only [hasDotPair, Bool.or_eq_false_iff, Bool.and_eq_false_imp,
      decide_eq_true_eq, decide_eq_false_iff_not] at h
    simp only [scanDot]
    rw [ih c (m + 1) _ h.2]
    rw [if_neg (fun hc => h.1 hc.2 hc.1)]

theorem scanDot_append (w1 : Str) :
    ∀ (p : Char) (m : Nat) (c : Char) (w2 : Str) (ld : Int),
      scanDot p m (w1 ++ c :: w2) ld =
        scanDot c (m + w1.length + 1) w2
          (if c = '.' ∧ (p :: w1).getLast (by simp) = '.'
            then toInt32 ((m + w1.length : Nat) : Int) else scanDot p m w1 ld) := by
  induction w1 with
  | nil => intro p m c w2 ld; simp [scanDot]
  | cons x w1 ih =>
    intro p m c w2 ld
    have e0 : scanDot p m (x :: w1 ++ c :: w2) ld =
        scanDot x (m + 1) (w1 ++ c :: w2)
          (if x = '.' ∧ p = '.' then toInt32 (m : Int) else ld) := rfl
    have e00 : scanDot p m (x :: w1) ld =
        scanDot x (m + 1) w1 (if x = '.' ∧ p = '.' then toInt32 (m : Int) else ld) := rfl
    rw [e0, e00, ih x (m + 1) c w2]
    have e1 : m + 1 + w1.length = m + (x :: w1).length := by
      simp only [List.length_cons]; omega
    have e2 : (p :: x :: w1).getLast (by simp) = (x :: w1).getLast (by simp) := by
      simp [List.getLast_cons]
    rw [e1, e2]

theorem isdigit_bounds {c : Char} (h : isdigit c = true) : 48 ≤ c.toNat ∧ c.toNat ≤ 57 := by
  simpa [isdigit] using h

theorem parseId_step (acc : Nat) (c : Char) (h : isdigit c = true) (hacc : acc ≤ 10 ^ 15) :
    ((acc * 10 + c.toNat) % SIZE_MOD + (SIZE_MOD - 48)) % SIZE_MOD
      = acc * 10 + (c.toNat - 48) := by
  obtain ⟨h1, h2⟩ := isdigit_bounds h
  unfold SIZE_MOD
  norm_num at hacc
  omega

theorem digitsValueFrom_cons (acc : Nat) (c : Char) (s : Str) :
    digitsValueFrom acc (c :: s) = digitsValueFrom (acc * 10 + (c.toNat - 48)) s := rfl

theorem digitsValueFrom_ge (s : Str) : ∀ acc, acc ≤ digitsValueFrom acc s := by
  induction s with
  | nil => intro acc; exact le_refl _
  | cons c s ih =>
    intro acc
    rw [digitsValueFrom_cons]
    have := ih (acc * 10 + (c.toNat - 48))
    omega

theorem parseIdLoop_digits (w : Str) :
    ∀ (a b : Str) (acc : Nat), allDigits w → digitsValueFrom acc w ≤ 10 ^ 15 →
      parseIdLoop (a ++ (w ++ b)) w.length a.length acc = some (digitsValueFrom acc w) := by
  induction w with
  | nil => intro a b acc _ _; rfl
  | cons c w ih =>
    intro a b acc hd hv
    have hc : isdigit c = true := hd c (by simp)
    have hw : allDigits w := fun x hx => hd x (List.mem_cons_of_mem _ hx)
    rw [digitsValueFrom_cons] at hv ⊢
    have h1 : acc * 10 + (c.toNat - 48) ≤ 10 ^ 15 := le_trans (digitsValueFrom_ge w _) hv
    have hacc : acc ≤ 10 ^ 15 := by omega
    have hat : charAt (a ++ (c :: w ++ b)) a.length = c := charAt_at a c (w ++ b)
    simp only [List.length_cons, parseIdLoop, hat, hc, Bool.not_true, Bool.false_eq_true,
      if_false]
    rw [parseId_step acc c hc hacc, if_neg (by omega)]
    have hd2 : a ++ (c :: w ++ b) = (a ++ [c]) ++ (w ++ b) := by simp
    have key := ih (a ++ [c]) b _ hw hv
    simp only [List.length_append, List.length_singleton] at key
    rw [hd2, key]

theorem parseIdLoop_overflow (w : Str) :
    ∀ (a b : Str) (acc : Nat), allDigits w → acc ≤ 10 ^ 15 → 10 ^ 15 < digitsValueFrom acc w →
      parseIdLoop (a ++ (w ++ b)) w.length a.length acc = none := by
  induction w with
  | nil =>
    intro a b acc _ h1 h2
    simp only [digitsValueFrom, List.foldl_nil] at h2
    omega
  | cons c w ih =>
    intro a b acc hd hacc hv
    have hc : isdigit c = true := hd c (by simp)
    have hw : allDigits w := fun x hx => hd x (List.mem_cons_of_mem _ hx)
    rw [digitsValueFrom_cons] at hv
    have hat : charAt (a ++ (c :: w ++ b)) a.length = c := charAt_at a c (w ++ b)
    simp only [List.length_cons, parseIdLoop, hat, hc, Bool.not_true, Bool.false_eq_true,
      if_false]
    rw [parseId_step acc c hc hacc]
    by_cases hbig : acc * 10 + (c.toNat - 48) > 10 ^ 15
    · rw [if_pos hbig]
    · rw [if_neg hbig]
      have hd2 : a ++ (c :: w ++ b) = (a ++ [c]) ++ (w ++ b) := by simp
      have key := ih (a ++ [c]) b _ hw (by omega) hv
      simp only [List.length_append, List.length_singleton] at key
      rw [hd2, key]

theorem parseIdLoop_nondigit (d : Str) :
    ∀ (n pos acc : Nat), (∃ j, pos ≤ j ∧ j < pos + n ∧ isdigit (charAt d j) = false) →
      parseIdLoop d n pos acc = none := by
  intro n
  induction n with
  | zero =>
    intro pos acc h
    obtain ⟨j, h1, h2, _⟩ := h
    omega
  | succ n ih =>
    intro pos acc h
    obtain ⟨j, h1, h2, h3⟩ := h
    simp only [parseIdLoop]
    by_cases hp : isdigit (charAt d pos) = true
    · simp only [hp, Bool.not_true, Bool.false_eq_true, if_false]
      split
      · rfl
      · apply ih
        refine ⟨j, ?_, by omega, h3⟩
        by_contra hlt
        have : j = pos := by omega
        rw [this, hp] at h3
        cases h3
    · simp [hp]

theorem parseId_digits (a w b : Str) (hd : allDigits w) (hv : digitsValue w ≤ 10 ^ 15) :
    parseId (a ++ (w ++ b)) a.length (a.length + w.length) = some (digitsValue w) := by
  unfold parseId
  have : a.length + w.length - a.length = w.length := by omega
  rw [this]
  exact parseIdLoop_digits w a b 0 hd hv

theorem parseId_overflow (a w b : Str) (hd : allDigits w) (hv : 10 ^ 15 < digitsValue w) :
    parseId (a ++ (w ++ b)) a.length (a.length + w.length) = none := by
  unfold parseId
  have : a.length + w.length - a.length = w.length := by omega
  rw [this]
  exact parseIdLoop_overflow w a b 0 hd (by norm_num) hv

theorem parseId_nondigit (d : Str) (l r : Nat)
    (h : ∃ j, l ≤ j ∧ j < r ∧ isdigit (charAt d j) = false) : parseId d l r = none := by
  unfold parseId
  apply parseIdLoop_nondigit
  obtain ⟨j, h1, h2, h3⟩ := h
  exact ⟨j, h1, by omega, h3⟩

theorem loopAt_group (sp : Char) (hsp : sp ≠ '}') (a body post : Str)
    (hb1 : '{' ∉ body) (hb2 : '}' ∉ body) (r : Nat)
    (hr : a.length + 1 + body.length + 1 ≤ r) (res cur : List Str) :
    loopAt (a ++ ('{' :: (body ++ ('}' :: post)))) sp r a.length res cur =
      match groupBuffer (a ++ ('{' :: (body ++ ('}' :: post)))) sp a.length
          ⟨a.length + 1 + body.length, 0, scanDot '{' (a.length + 1) body (-1),
            decide (sp ∈ body)⟩ with
      | .error e => .error e
      | .ok buf =>
        match append cur buf with
        | .error e => .error e
        | .ok cur1 =>
          loopAt (a ++ ('{' :: (body ++ ('}' :: post)))) sp r
            (a.length + 1 + body.length + 1) res cur1 := by
  rw [loopAt_brace _ sp r a.length res cur (by omega) (charAt_at a '{' _)]
  rw [findClosingBrace_group sp hsp a body post hb1 hb2 r hr]
  simp

theorem charAt_mid (a w b : Str) (k : Nat) (hk : k < w.length) :
    charAt (a ++ (w ++ b)) (a.length + k) = w.get ⟨k, hk⟩ := by
  unfold charAt
  rw [List.getD_eq_getElem?_getD, List.getElem?_append_right (by omega)]
  have : a.length + k - a.length = k := by omega
  rw [this, List.getElem?_append_left hk, List.getElem?_eq_getElem hk]
  rfl

theorem parseId_spec (a w b : Str) :
    parseId (a ++ (w ++ b)) a.length (a.length + w.length) =
      if allDigits w ∧ digitsValue w ≤ 10 ^ 15 then some (digitsValue w) else none := by
  by_cases hd : allDigits w
  · by_cases hv : digitsValue w ≤ 10 ^ 15
    · rw [if_pos ⟨hd, hv⟩]
      exact parseId_digits a w b hd hv
    · rw [if_neg (fun h => hv h.2)]
      exact parseId_overflow a w b hd (by omega)
  · rw [if_neg (fun h => hd h.1)]
    apply parseId_nondigit
    unfold allDigits at hd
    push_neg at hd
    obtain ⟨c, hc, hnd⟩ := hd
    obtain ⟨k, hk, hkc⟩ := List.getElem_of_mem hc
    refine ⟨a.length + k, by omega, by omega, ?_⟩
    rw [charAt_mid a w b k hk]
    simp only [List.get_eq_getElem, hkc]
    simpa using hnd

theorem parseRange_written (a L R post : Str) :
    parseRange (a ++ ('{' :: ((L ++ '.' :: '.' :: R) ++ ('}' :: post)))) a.length
        (a.length + 1 + (L ++ '.' :: '.' :: R).length)
        ((a.length + 1 + L.length + 1 : Nat) : Int) =
      if ¬ (allDigits L ∧ digitsValue L ≤ 10 ^ 15) then .error .incorrectLeftNumber
      else if ¬ (allDigits R ∧ digitsValue R ≤ 10 ^ 15) then .error .incorrectRightNumber
      else if digitsValue L > digitsValue R then .error .leftGreaterThanRight
      else if digitsValue R - digitsValue L + 1 > MAX_ADDRESSES then .error .tooManyAddresses
      else .ok ((List.range' (digitsValue L) (digitsValue R + 1 - digitsValue L)).map
        toStringUInt64) := by
  unfold parseRange
  have e1 : (((a.length + 1 + L.length + 1 : Nat) : Int) - 1).toNat = a.length + 1 + L.length := by
    omega
  have e2 : (((a.length + 1 + L.length + 1 : Nat) : Int) + 1).toNat =
      a.length + 1 + L.length + 2 := by omega
  rw [e1, e2]
  have d1 : a ++ ('{' :: ((L ++ '.' :: '.' :: R) ++ ('}' :: post))) =
      (a ++ '{' :: L) ++ ('.' :: ('.' :: R ++ '}' :: post)) := by simp
  have l1 : (a ++ '{' :: L).length = a.length + 1 + L.length := by
    simp only [List.length_append, List.length_cons]; omega
  have hdot : charAt (a ++ ('{' :: ((L ++ '.' :: '.' :: R) ++ ('}' :: post))))
      (a.length + 1 + L.length) = '.' := by
    rw [d1, ← l1]
    exact charAt_at _ _ _
  have d2 : a ++ ('{' :: ((L ++ '.' :: '.' :: R) ++ ('}' :: post))) =
      (a ++ ['{']) ++ (L ++ ('.' :: '.' :: R ++ '}' :: post)) := by simp
  have l2 : (a ++ ['{']).length = a.length + 1 := by simp
  have hleft : parseId (a ++ ('{' :: ((L ++ '.' :: '.' :: R) ++ ('}' :: post))))
      (a.length + 1) (a.length + 1 + L.length) =
      if allDigits L ∧ digitsValue L ≤ 10 ^ 15 then some (digitsValue L) else none := by
    rw [d2, ← l2]
    exact parseId_spec _ L _
  have d3 : a ++ ('{' :: ((L ++ '.' :: '.' :: R) ++ ('}' :: post))) =
      (a ++ '{' :: L ++ ['.', '.']) ++ (R ++ ('}' :: post)) := by simp
  have l3 : (a ++ '{' :: L ++ ['.', '.']).length = a.length + 1 + L.length + 2 := by
    simp only [List.length_append, List.length_cons, List.length_nil]; omega
  have l4 : a.length + 1 + (L ++ '.' :: '.' :: R).length =
      (a ++ '{' :: L ++ ['.', '.']).length + R.length := by
    simp only [List.length_append, List.length_cons, List.length_nil]; omega
  have hright : parseId (a ++ ('{' :: ((L ++ '.' :: '.' :: R) ++ ('}' :: post))))
      (a.length + 1 + L.length + 2) (a.length + 1 + (L ++ '.' :: '.' :: R).length) =
      if allDigits R ∧ digitsValue R ≤ 10 ^ 15 then some (digitsValue R) else none := by
    rw [l4, d3, ← l3]
    exact parseId_spec _ R _
  rw [hdot, hleft, hright]
  simp only [ne_eq, not_true_eq_false, if_false]
  by_cases hL : allDigits L ∧ digitsValue L ≤ 10 ^ 15
  · by_cases hR : allDigits R ∧ digitsValue R ≤ 10 ^ 15
    · rw [if_pos hL, if_pos hR, if_neg (not_not.mpr hL), if_neg (not_not.mpr hR)]
    · rw [if_pos hL, if_neg hR, if_neg (not_not.mpr hL), if_pos hR]
  · rw [if_neg hL, if_pos hL]

theorem scanDot_cons (p : Char) (m : Nat) (c : Char) (w : Str) (ld : Int) :
    scanDot p m (c :: w) ld =
      scanDot c (m + 1) w (if c = '.' ∧ p = '.' then toInt32 (m : Int) else ld) := by
  simp only [scanDot]

theorem scanDot_written (L R : Str) (p : Char) (m : Nat) (ld : Int) :
    scanDot p m (L ++ '.' :: '.' :: R) ld =
      scanDot '.' (m + L.length + 2) R (toInt32 ((m + L.length + 1 : Nat) : Int)) := by
  rw [scanDot_append, scanDot_cons, if_pos ⟨rfl, rfl⟩]

theorem hasDotPair_of_not_mem (w : Str) (h : '.' ∉ w) : ∀ p, hasDotPair (p :: w) = false := by
  induction w with
  | nil => intro p; rfl
  | cons c w ih =>
    intro p
    have hc : c ≠ '.' := fun e => h (by simp [e])
    have hw : '.' ∉ w := fun e => h (List.mem_cons_of_mem _ e)
    simp [hasDotPair, hc, ih hw c]

theorem not_mem_of_allDigits (w : Str) (h : allDigits w) (c : Char) (hc : isdigit c = false) :
    c ∉ w := by
  intro hm
  rw [h c hm] at hc
  cases hc

theorem append_nil_left (buf : List Str) (h : buf ≠ []) : append [] buf = .ok buf := by
  unfold append
  cases buf with
  | nil => exact absurd rfl h
  | cons x xs => simp

theorem append_one_left (x : Str) (buf : List Str) (h : buf ≠ [])
    (hl : buf.length ≤ MAX_ADDRESSES) : append [x] buf = .ok (buf.map fun b => x ++ b) := by
  unfold append
  cases buf with
  | nil => exact absurd rfl h
  | cons y ys =>
    have h1 : ((y :: ys).length * ([x] : List Str).length) % SIZE_MOD = (y :: ys).length := by
      unfold MAX_ADDRESSES at hl
      unfold SIZE_MOD
      simp only [List.length_singleton, Nat.mul_one]
      omega
    simp only [List.isEmpty_cons, Bool.false_eq_true, if_false, h1]
    rw [if_neg (by omega)]
    simp [List.flatMap]

theorem append_appendLit_nil (pre : Str) (buf : List Str) (h : buf ≠ [])
    (hl : buf.length ≤ MAX_ADDRESSES) :
    append (appendLit [] pre) buf = .ok (buf.map fun b => pre ++ b) := by
  unfold appendLit
  by_cases hp : pre = []
  · subst hp
    simp [append_nil_left buf h]
  · simp only [hp, if_false, if_true]
    exact append_one_left pre buf h hl

theorem appendLit_of_ne_nil (cur : List Str) (w : Str) (h : cur ≠ []) :
    appendLit cur w = cur.map fun a => a ++ w := by
  unfold appendLit
  by_cases hw : w = []
  · subst hw; simp
  · simp [hw, h]

theorem finish_nil_ok (cur : List Str) (h : cur.length ≤ MAX_ADDRESSES) :
    finish [] cur = .ok cur := by
  unfold finish
  simp only [List.nil_append]
  rw [if_neg (by omega)]

theorem expand_single_group (sp : Char) (h2 : sp ≠ '}') (pre body post : Str)
    (hpre1 : '{' ∉ pre) (hpre2 : sp ∉ pre) (hpost1 : '{' ∉ post) (hpost2 : sp ∉ post)
    (hb1 : '{' ∉ body) (hb2 : '}' ∉ body) (buf : List Str) (hne : buf ≠ [])
    (hlen : buf.length ≤ MAX_ADDRESSES)
    (hbuf : groupBuffer (pre ++ ('{' :: (body ++ ('}' :: post)))) sp pre.length
      ⟨pre.length + 1 + body.length, 0, scanDot '{' (pre.length + 1) body (-1),
        decide (sp ∈ body)⟩ = .ok buf) :
    expand (pre ++ ('{' :: (body ++ ('}' :: post)))) sp =
      .ok (buf.map fun x => pre ++ x ++ post) := by
  rw [expand_eq_loopAt _ _ (by simp)]
  have hlenT : (pre ++ ('{' :: (body ++ ('}' :: post)))).length =
      pre.length + 1 + body.length + 1 + post.length := by
    simp only [List.length_append, List.length_cons]; omega
  have step1 := loopAt_litRun sp pre hpre1 hpre2 [] ('{' :: (body ++ ('}' :: post)))
    (pre ++ ('{' :: (body ++ ('}' :: post)))).length [] []
    (by rw [hlenT]; simp only [List.length_nil]; omega) (by simp [MAX_ADDRESSES])
  simp only [List.nil_append, List.length_nil, Nat.zero_add] at step1
  rw [step1]
  rw [loopAt_group sp h2 pre body post hb1 hb2 _ (by rw [hlenT]; omega), hbuf]
  simp only []
  rw [append_appendLit_nil pre buf hne hlen]
  simp only []
  have hd : pre ++ ('{' :: (body ++ ('}' :: post))) =
      (pre ++ ('{' :: (body ++ ['}']))) ++ (post ++ []) := by simp
  have hl : (pre ++ ('{' :: (body ++ ['}']))).length = pre.length + 1 + body.length + 1 := by
    simp only [List.length_append, List.length_cons, List.length_nil]; omega
  have hcur : (buf.map fun b => pre ++ b).length ≤ MAX_ADDRESSES := by simpa using hlen
  have step2 := loopAt_litRun sp post hpost1 hpost2 (pre ++ ('{' :: (body ++ ['}']))) []
    (pre ++ ('{' :: (body ++ ('}' :: post)))).length [] (buf.map fun b => pre ++ b)
    (by rw [hlenT, hl]) hcur
  rw [← hd, hl] at step2
  rw [step2, loopAt_end _ _ _ _ _ _ (by rw [hlenT]; omega)]
  rw [appendLit_of_ne_nil _ _ (by simpa using hne)]
  rw [finish_nil_ok _ (by simpa using hlen)]
  simp [List.map_map, Function.comp]

theorem mem_joinWith (sep c : Char) :
    ∀ (xs : List Str), c ∈ joinWith sep xs → c = sep ∨ ∃ x ∈ xs, c ∈ x := by
  intro xs
  induction xs with
  | nil => intro h; simp [joinWith] at h
  | cons x rest ih =>
    intro h
    cases rest with
    | nil =>
      simp only [joinWith] at h
      exact Or.inr ⟨x, by simp, h⟩
    | cons x2 rest =>
      simp only [joinWith, List.mem_append, List.mem_cons] at h
      rcases h with h | h | h
      · exact Or.inr ⟨x, by simp, h⟩
      · exact Or.inl h
      · rcases ih h with h3 | ⟨y, hy, hc⟩
        · exact Or.inl h3
        · exact Or.inr ⟨y, List.mem_cons_of_mem _ hy, hc⟩

theorem sep_mem_joinWith (sep : Char) (xs : List Str) (h : 2 ≤ xs.length) :
    sep ∈ joinWith sep xs := by
  cases xs with
  | nil => simp at h
  | cons x rest =>
    cases rest with
    | nil => simp at h
    | cons x2 rest => simp [joinWith]

theorem not_mem_joinWith (sep c : Char) (xs : List Str) (hc : c ≠ sep)
    (h : ∀ x ∈ xs, c ∉ x) : c ∉ joinWith sep xs := by
  intro hm
  rcases mem_joinWith sep c xs hm with h1 | ⟨x, hx, hcx⟩
  · exact hc h1
  · exact h x hx hcx

theorem hasDotPair_cons (p : Char) (hp : p ≠ '.') (w : Str) :
    hasDotPair (p :: w) = hasDotPair w := by
  cases w with
  | nil => rfl
  | cons c w => simp [hasDotPair, hp]

theorem hasDotPair_append_sep (sep : Char) (hs : sep ≠ '.') (v : Str) :
    ∀ (u : Str), hasDotPair (u ++ sep :: v) = (hasDotPair u || hasDotPair v) := by
  intro u
  induction u with
  | nil => simp [hasDotPair_cons sep hs v, hasDotPair]
  | cons a u ih =>
    cases u with
    | nil =>
      simp [hasDotPair, hs, hasDotPair_cons sep hs v]
    | cons a2 u =>
      have e : hasDotPair (a :: a2 :: u ++ sep :: v) =
          ((decide (a = '.') && decide (a2 = '.')) || hasDotPair (a2 :: u ++ sep :: v)) := rfl
      have e2 : hasDotPair (a :: a2 :: u) =
          ((decide (a = '.') && decide (a2 = '.')) || hasDotPair (a2 :: u)) := rfl
      rw [e, e2, ih, Bool.or_assoc]

theorem hasDotPair_joinWith (sep : Char) (hs : sep ≠ '.') :
    ∀ (xs : List Str), (∀ x ∈ xs, hasDotPair x = false) → hasDotPair (joinWith sep xs) = false := by
  intro xs
  induction xs with
  | nil => intro _; rfl
  | cons x rest ih =>
    intro h
    cases rest with
    | nil => simpa [joinWith] using h x (by simp)
    | cons x2 rest =>
      simp only [joinWith]
      rw [hasDotPair_append_sep sep hs, h x (by simp),
        ih (fun y hy => h y (List.mem_cons_of_mem _ hy))]
      rfl

theorem groupBuffer_alternation (sp : Char) (h1 : sp ≠ '{') (h3 : sp ≠ '.') (a post : Str)
    (xs : List Str) (hn : 2 ≤ xs.length) (hn2 : xs.length ≤ MAX_ADDRESSES)
    (hxs : ∀ x ∈ xs, x ≠ [] ∧ '{' ∉ x ∧ sp ∉ x ∧ hasDotPair x = false) :
    groupBuffer (a ++ ('{' :: (joinWith sp xs ++ ('}' :: post)))) sp a.length
      ⟨a.length + 1 + (joinWith sp xs).length, 0,
        scanDot '{' (a.length + 1) (joinWith sp xs) (-1),
        decide (sp ∈ joinWith sp xs)⟩ = .ok xs := by
  have hne : xs ≠ [] := by
    intro h
    rw [h] at hn
    simp at hn
  unfold groupBuffer
  have hdp : hasDotPair ('{' :: joinWith sp xs) = false := by
    rw [hasDotPair_cons _ (by decide)]
    exact hasDotPair_joinWith sp h3 xs (fun x hx => (hxs x hx).2.2.2)
  simp only [scanDot_none _ _ _ _ hdp, ne_eq, not_true_eq_false, if_false,
    sep_mem_joinWith sp xs hn, decide_True, if_true]
  rw [parseDescription_eq]
  have hjne := joinWith_ne_nil sp xs hne (fun s hs => (hxs s hs).1)
  have hpos : 0 < (joinWith sp xs).length := List.length_pos.mpr hjne
  rw [if_neg (by omega)]
  have hd : a ++ ('{' :: (joinWith sp xs ++ ('}' :: post))) =
      (a ++ ['{']) ++ (joinWith sp xs ++ ('}' :: post)) := by simp
  have key := loopAt_segments sp h1 xs hne
    (fun x hx => ⟨(hxs x hx).1, (hxs x hx).2.1, (hxs x hx).2.2.1⟩) (a ++ ['{']) ('}' :: post) []
  simp only [List.length_append, List.length_singleton, List.nil_append] at key
  rw [hd, key]
  unfold finish
  simp only [List.append_nil]
  rw [if_neg (by omega)]

theorem groupBuffer_range (sp : Char) (a L R post : Str) (hL : allDigits L) (hR : allDigits R)
    (hab : digitsValue L ≤ digitsValue R) (hb : digitsValue R ≤ 10 ^ 15)
    (hcnt : digitsValue R - digitsValue L + 1 ≤ MAX_ADDRESSES)
    (hidx : a.length + L.length + 2 < 2147483648) :
    groupBuffer (a ++ ('{' :: ((L ++ '.' :: '.' :: R) ++ ('}' :: post)))) sp a.length
      ⟨a.length + 1 + (L ++ '.' :: '.' :: R).length, 0,
        scanDot '{' (a.length + 1) (L ++ '.' :: '.' :: R) (-1),
        decide (sp ∈ (L ++ '.' :: '.' :: R))⟩ =
      .ok ((List.range' (digitsValue L) (digitsValue R - digitsValue L + 1)).map
        toStringUInt64) := by
  unfold groupBuffer
  have hdot : '.' ∉ R := not_mem_of_allDigits R hR '.' (by decide)
  have hld : scanDot '{' (a.length + 1) (L ++ '.' :: '.' :: R) (-1) =
      ((a.length + 1 + L.length + 1 : Nat) : Int) := by
    rw [scanDot_written, scanDot_none _ _ _ _ (hasDotPair_of_not_mem R hdot '.'),
      toInt32_index _ (by omega)]
  simp only [hld]
  rw [if_pos (by omega), parseRange_written]
  rw [if_neg (not_not.mpr ⟨hL, by omega⟩), if_neg (not_not.mpr ⟨hR, hb⟩), if_neg (by omega),
    if_neg (by omega)]
  have : digitsValue R + 1 - digitsValue L = digitsValue R - digitsValue L + 1 := by omega
  rw [this]

theorem isdigit_digitChar (k : Nat) (h : k < 10) : isdigit (Nat.digitChar k) = true := by
  interval_cases k <;> decide

theorem toDigitsCore_digits :
    ∀ (fuel n : Nat) (ds : List Char), (∀ c ∈ ds, isdigit c = true) →
      ∀ c ∈ Nat.toDigitsCore 10 fuel n ds, isdigit c = true := by
  intro fuel
  induction fuel with
  | zero => intro n ds h c hc; exact h c (by simpa [Nat.toDigitsCore] using hc)
  | succ fuel ih =>
    intro n ds h c hc
    have hds : ∀ x ∈ Nat.digitChar (n % 10) :: ds, isdigit x = true := by
      intro x hx
      rcases List.mem_cons.mp hx with hx | hx
      · rw [hx]; exact isdigit_digitChar _ (Nat.mod_lt _ (by decide))
      · exact h x hx
    simp only [Nat.toDigitsCore] at hc
    split at hc
    · exact hds c hc
    · exact ih _ _ hds c hc

theorem allDigits_toDigits (n : Nat) : allDigits (Nat.toDigits 10 n) := by
  intro c hc
  exact toDigitsCore_digits _ _ [] (by simp) c hc

theorem groupBuffer_deferred (sp : Char) (a body post : Str) (hs : sp ∉ body)
    (hdp : hasDotPair body = false) :
    groupBuffer (a ++ ('{' :: (body ++ ('}' :: post)))) sp a.length
      ⟨a.length + 1 + body.length, 0, scanDot '{' (a.length + 1) body (-1),
        decide (sp ∈ body)⟩ = .ok ['{' :: (body ++ ['}'])] := by
  unfold groupBuffer
  have h1 : hasDotPair ('{' :: body) = false := by
    rw [hasDotPair_cons _ (by decide)]
    exact hdp
  simp only [scanDot_none _ _ _ _ h1, ne_eq, not_true_eq_false, if_false, hs, decide_False,
    Bool.false_eq_true]
  have hd : a ++ ('{' :: (body ++ ('}' :: post))) = a ++ (('{' :: (body ++ ['}'])) ++ post) := by
    simp
  have hl : a.length + 1 + body.length - a.length + 1 = ('{' :: (body ++ ['}'])).length := by
    simp only [List.length_cons, List.length_append, List.length_nil]
    omega
  rw [hl, hd, substr_mid]

theorem loopAt_group_ok (sp : Char) (hsp : sp ≠ '}') (a body post : Str)
    (hb1 : '{' ∉ body) (hb2 : '}' ∉ body) (r : Nat)
    (hr : a.length + 1 + body.length + 1 ≤ r) (res cur buf cur1 : List Str)
    (hbuf : groupBuffer (a ++ ('{' :: (body ++ ('}' :: post)))) sp a.length
      ⟨a.length + 1 + body.length, 0, scanDot '{' (a.length + 1) body (-1),
        decide (sp ∈ body)⟩ = .ok buf)
    (happ : append cur buf = .ok cur1) :
    loopAt (a ++ ('{' :: (body ++ ('}' :: post)))) sp r a.length res cur =
      loopAt (a ++ ('{' :: (body ++ ('}' :: post)))) sp r (a.length + 1 + body.length + 1)
        res cur1 := by
  rw [loopAt_group sp hsp a body post hb1 hb2 r hr, hbuf]
  simp only []
  rw [happ]

theorem replicaPass_map {α : Type} (tok : α → Str) (g : α → List Str) :
    ∀ (ns : List α), (∀ n ∈ ns, expand (tok n) '|' = .ok (g n)) →
      replicaPass (ns.map tok) = .ok (ns.map g) := by
  intro ns
  induction ns with
  | nil => intro _; rfl
  | cons t rest ih =>
    intro h
    simp only [List.map_cons, replicaPass, h t (by simp),
      ih (fun x hx => h x (List.mem_cons_of_mem _ hx))]

theorem expand_range_then_deferred (pre mid L R body2 : Str)
    (hpre : '{' ∉ pre ∧ ',' ∉ pre) (hmid : '{' ∉ mid ∧ ',' ∉ mid)
    (hL : allDigits L) (hR : allDigits R)
    (hab : digitsValue L ≤ digitsValue R) (hb : digitsValue R ≤ 10 ^ 15)
    (hcnt : digitsValue R - digitsValue L + 1 ≤ MAX_ADDRESSES)
    (h2a : '{' ∉ body2) (h2b : '}' ∉ body2) (h2c : ',' ∉ body2)
    (h2d : hasDotPair body2 = false) (hidx : pre.length + L.length + 2 < 2147483648) :
    expand (pre ++ ('{' :: ((L ++ '.' :: '.' :: R) ++
        ('}' :: (mid ++ ('{' :: (body2 ++ ['}']))))))) ',' =
      .ok ((List.range' (digitsValue L) (digitsValue R - digitsValue L + 1)).map
        fun n => pre ++ Nat.toDigits 10 n ++ mid ++ ('{' :: (body2 ++ ['}']))) := by
  have hbr : ∀ c, isdigit c = false → c ≠ '.' → c ∉ (L ++ '.' :: '.' :: R) := by
    intro c hc hne hm
    simp only [List.mem_append, List.mem_cons] at hm
    rcases hm with h | h | h | h
    · exact not_mem_of_allDigits L hL c hc h
    · exact hne h
    · exact hne h
    · exact not_mem_of_allDigits R hR c hc h
  rw [expand_eq_loopAt _ _ (by simp)]
  generalize hT : (pre ++ ('{' :: ((L ++ '.' :: '.' :: R) ++
        ('}' :: (mid ++ ('{' :: (body2 ++ ['}']))))))) = T
  have hlenT : T.length = pre.length + 1 + (L ++ '.' :: '.' :: R).length + 1 + mid.length + 1
      + body2.length + 1 := by
    rw [← hT]
    simp only [List.length_append, List.length_cons, List.length_nil]; omega
  -- the literal prefix
  have step1 := loopAt_litRun ',' pre hpre.1 hpre.2 []
    ('{' :: ((L ++ '.' :: '.' :: R) ++ ('}' :: (mid ++ ('{' :: (body2 ++ ['}']))))))
    T.length [] [] (by rw [hlenT]; simp only [List.length_nil]; omega) (by simp [MAX_ADDRESSES])
  simp only [List.nil_append, List.length_nil, Nat.zero_add] at step1
  rw [hT] at step1
  rw [step1]
  -- the numeric range
  have hbuf1 := groupBuffer_range ',' pre L R (mid ++ ('{' :: (body2 ++ ['}']))) hL hR hab hb hcnt
    hidx
  have hne1 : (List.range' (digitsValue L) (digitsValue R - digitsValue L + 1)).map
      toStringUInt64 ≠ [] := by
    intro h
    have := congrArg List.length h
    simp at this
  have hlen1 : ((List.range' (digitsValue L) (digitsValue R - digitsValue L + 1)).map
      toStringUInt64).length ≤ MAX_ADDRESSES := by
    simp only [List.length_map, List.length_range']
    exact hcnt
  have step2 := loopAt_group_ok ',' (by decide) pre (L ++ '.' :: '.' :: R)
    (mid ++ ('{' :: (body2 ++ ['}']))) (hbr '{' (by decide) (by decide))
    (hbr '}' (by decide) (by decide)) T.length (by rw [hlenT]; omega) []
    (appendLit [] pre) _ _ hbuf1 (append_appendLit_nil pre _ hne1 hlen1)
  rw [hT] at step2
  rw [step2]
  -- the literal between the groups
  have hd3 : T = (pre ++ ('{' :: ((L ++ '.' :: '.' :: R) ++ ['}']))) ++
      (mid ++ ('{' :: (body2 ++ ['}']))) := by
    rw [← hT]; simp
  have hl3 : (pre ++ ('{' :: ((L ++ '.' :: '.' :: R) ++ ['}']))).length =
      pre.length + 1 + (L ++ '.' :: '.' :: R).length + 1 := by
    simp only [List.length_append, List.length_cons, List.length_nil]; omega
  have step3 := loopAt_litRun ',' mid hmid.1 hmid.2
    (pre ++ ('{' :: ((L ++ '.' :: '.' :: R) ++ ['}']))) ('{' :: (body2 ++ ['}'])) T.length []
    (((List.range' (digitsValue L) (digitsValue R - digitsValue L + 1)).map
      toStringUInt64).map fun b => pre ++ b)
    (by rw [hlenT, hl3]; omega) (by simpa using hlen1)
  rw [← hd3, hl3] at step3
  rw [step3, appendLit_of_ne_nil _ _ (by simp)]
  -- the group of the other separator is copied
  have hd4 : T = (pre ++ ('{' :: ((L ++ '.' :: '.' :: R) ++ ('}' :: mid)))) ++
      ('{' :: (body2 ++ ('}' :: []))) := by
    rw [← hT]; simp
  have hl4 : (pre ++ ('{' :: ((L ++ '.' :: '.' :: R) ++ ('}' :: mid)))).length =
      pre.length + 1 + (L ++ '.' :: '.' :: R).length + 1 + mid.length := by
    simp only [List.length_append, List.length_cons]; omega
  have hbuf4 := groupBuffer_deferred ','
    (pre ++ ('{' :: ((L ++ '.' :: '.' :: R) ++ ('}' :: mid)))) body2 [] h2c h2d
  have step4 := loopAt_group_ok ',' (by decide)
    (pre ++ ('{' :: ((L ++ '.' :: '.' :: R) ++ ('}' :: mid)))) body2 [] h2a h2b T.length
    (by rw [hlenT, hl4]) []
    ((((List.range' (digitsValue L) (digitsValue R - digitsValue L + 1)).map
      toStringUInt64).map fun b => pre ++ b).map fun x => x ++ mid) _ _ hbuf4
    (append_single _ _ (by simpa using hlen1))
  rw [← hd4, hl4] at step4
  rw [step4, loopAt_end _ _ _ _ _ _ (by rw [hlenT]; omega)]
  rw [if_neg (by simp), finish_nil_ok _ (by simpa using hlen1)]
  simp [List.map_map, Function.comp, toStringUInt64]

theorem buildNames_range_alternation (pre mid L R : Str) (rs : List Str)
    (hpre : '{' ∉ pre ∧ '}' ∉ pre ∧ ',' ∉ pre ∧ '|' ∉ pre)
    (hmid : '{' ∉ mid ∧ '}' ∉ mid ∧ ',' ∉ mid ∧ '|' ∉ mid)
    (hrs : ∀ x ∈ rs, x ≠ [] ∧ '{' ∉ x ∧ '}' ∉ x ∧ ',' ∉ x ∧ '|' ∉ x ∧ hasDotPair x = false)
    (hk1 : 2 ≤ rs.length) (hk2 : rs.length ≤ 200)
    (hL : allDigits L) (hR : allDigits R)
    (hab : digitsValue L ≤ digitsValue R) (hb : digitsValue R ≤ 10 ^ 15)
    (hcnt : digitsValue R - digitsValue L + 1 ≤ 200)
    (hidx : pre.length + L.length + 2 < 2147483648) :
    buildNames (pre ++ ['{'] ++ L ++ ['.', '.'] ++ R ++ ['}'] ++ mid ++ ['{'] ++
        joinWith '|' rs ++ ['}']) =
      .ok ((List.range' (digitsValue L) (digitsValue R - digitsValue L + 1)).map
        fun n => rs.map fun ri => pre ++ Nat.toDigits 10 n ++ mid ++ ri) := by
  have hd : pre ++ ['{'] ++ L ++ ['.', '.'] ++ R ++ ['}'] ++ mid ++ ['{'] ++
      joinWith '|' rs ++ ['}'] =
      pre ++ ('{' :: ((L ++ '.' :: '.' :: R) ++
        ('}' :: (mid ++ ('{' :: (joinWith '|' rs ++ ['}'])))))) := by simp
  have hj1 : '{' ∉ joinWith '|' rs :=
    not_mem_joinWith '|' '{' rs (by decide) (fun x hx => (hrs x hx).2.1)
  have hj2 : '}' ∉ joinWith '|' rs :=
    not_mem_joinWith '|' '}' rs (by decide) (fun x hx => (hrs x hx).2.2.1)
  have hj3 : ',' ∉ joinWith '|' rs :=
    not_mem_joinWith '|' ',' rs (by decide) (fun x hx => (hrs x hx).2.2.2.1)
  have hj4 : hasDotPair (joinWith '|' rs) = false :=
    hasDotPair_joinWith '|' (by decide) rs (fun x hx => (hrs x hx).2.2.2.2.2)
  have hne : rs ≠ [] := by
    intro h
    rw [h] at hk1
    simp at hk1
  unfold buildNames
  rw [hd, expand_range_then_deferred pre mid L R (joinWith '|' rs) ⟨hpre.1, hpre.2.2.1⟩
    ⟨hmid.1, hmid.2.2.1⟩ hL hR hab hb hcnt hj1 hj2 hj3 hj4 hidx]
  simp only []
  apply replicaPass_map
  intro n _
  have hdig := allDigits_toDigits n
  have hp1 : '{' ∉ pre ++ Nat.toDigits 10 n ++ mid := by
    simp only [List.mem_append, not_or]
    exact ⟨⟨hpre.1, not_mem_of_allDigits _ hdig '{' (by decide)⟩, hmid.1⟩
  have hp2 : '|' ∉ pre ++ Nat.toDigits 10 n ++ mid := by
    simp only [List.mem_append, not_or]
    exact ⟨⟨hpre.2.2.2, not_mem_of_allDigits _ hdig '|' (by decide)⟩, hmid.2.2.2⟩
  have key := expand_single_group '|' (by decide) (pre ++ Nat.toDigits 10 n ++ mid)
    (joinWith '|' rs) [] hp1 hp2 (by simp) (by simp) hj1 hj2 rs hne hk2
    (groupBuffer_alternation '|' (by decide) (by decide) (pre ++ Nat.toDigits 10 n ++ mid) []
      rs hk1 hk2
      (fun x hx => ⟨(hrs x hx).1, (hrs x hx).2.1, (hrs x hx).2.2.2.2.1, (hrs x hx).2.2.2.2.2⟩))
  rw [key]
  simp

theorem replicaPass_ok :
    ∀ (shards : List Str) (names : List (List Str)), replicaPass shards = .ok names →
      List.Forall₂ (fun shard replicas => expand shard '|' = .ok replicas) shards names := by
  intro shards
  induction shards with
  | nil =>
    intro names h
    simp only [replicaPass] at h
    cases h
    exact List.Forall₂.nil
  | cons t rest ih =>
    intro names h
    simp only [replicaPass] at h
    split at h
    · cases h
    · rename_i replicas he
      split at h
      · cases h
      · rename_i names1 hrest
        cases h
        exact List.Forall₂.cons he (ih names1 hrest)

theorem sum_le_of_forall_le (bound : Nat) :
    ∀ (l : List Nat), (∀ x ∈ l, x ≤ bound) → l.sum ≤ l.length * bound := by
  intro l
  induction l with
  | nil => intro _; simp
  | cons x xs ih =>
    intro h
    have h1 := h x (by simp)
    have h2 := ih (fun y hy => h y (List.mem_cons_of_mem _ hy))
    simp only [List.sum_cons, List.length_cons]
    rw [Nat.add_mul]
    omega

theorem sum_map_const {α : Type} (l : List α) (g : α → Nat) (c : Nat) (h : ∀ x, g x = c) :
    (l.map g).sum = l.length * c := by
  induction l with
  | nil => simp
  | cons x xs ih =>
    simp only [List.map_cons, List.sum_cons, List.length_cons, ih, h x]
    rw [Nat.add_mul]
    omega

theorem buildNames_bounds (descripton : Str) (names : List (List Str))
    (h : buildNames descripton = .ok names) :
    names.length ≤ MAX_ADDRESSES ∧ (∀ shard ∈ names, shard.length ≤ MAX_ADDRESSES) := by
  unfold buildNames at h
  split at h
  · cases h
  · rename_i shards hs
    have hf := replicaPass_ok shards names h
    constructor
    · rw [← hf.length_eq]
      exact parseDescription_ok_length _ _ _ _ _ hs
    · intro shard hm
      obtain ⟨k, hk, rfl⟩ := List.getElem_of_mem hm
      have hk2 : k < shards.length := by rw [hf.length_eq]; exact hk
      have := (List.forall₂_iff_get.mp hf).2 k hk2 hk
      exact parseDescription_ok_length _ _ _ _ _ this

theorem findClosingBrace_sep (d : Str) (sp : Char) :
    ∀ (n m : Nat) (cnt ld : Int) (hs : Bool),
      (findClosingBrace d sp n m cnt ld hs).have_spliter = true →
        hs = true ∨ ∃ j, m ≤ j ∧ j < m + n ∧ charAt d j = sp := by
  intro n
  induction n with
  | zero => intro m cnt ld hs h; left; exact h
  | succ n ih =>
    intro m cnt ld hs h
    rw [findClosingBrace_succ] at h
    have hsee : sepSeen sp (charAt d m) hs = true →
        hs = true ∨ ∃ j, m ≤ j ∧ j < m + (n + 1) ∧ charAt d j = sp := by
      intro h1
      unfold sepSeen at h1
      by_cases hc : charAt d m = sp
      · exact Or.inr ⟨m, le_refl _, by omega, hc⟩
      · rw [if_neg hc] at h1
        exact Or.inl h1
    by_cases hc : braceCnt (charAt d m) cnt = 0
    · rw [if_pos hc] at h
      exact hsee h
    · rw [if_neg hc] at h
      rcases ih _ _ _ _ h with h1 | ⟨j, h1, h2, h3⟩
      · exact hsee h1
      · exact Or.inr ⟨j, by omega, by omega, h3⟩

theorem parseRange_ok_ne_nil (d : Str) (i m : Nat) (ld : Int) (buf : List Str)
    (h : parseRange d i m ld = .ok buf) : buf ≠ [] := by
  unfold parseRange at h
  split at h
  · cases h
  · split at h
    · cases h
    · split at h
      · cases h
      · split at h
        · cases h
        · split at h
          · cases h
          · cases h
            intro hnil
            have := congrArg List.length hnil
            simp only [List.length_map, List.length_range', List.length_nil] at this
            omega

theorem append_ok_ne_nil (cur buf cur1 : List Str) (hb : buf ≠ [])
    (h : append cur buf = .ok cur1) : cur1 ≠ [] := by
  unfold append at h
  cases buf with
  | nil => exact absurd rfl hb
  | cons y ys =>
    cases cur with
    | nil =>
      simp at h
      rw [← h]
      simp
    | cons x xs =>
      simp only [List.isEmpty_cons, Bool.false_eq_true, if_false] at h
      split at h
      · cases h
      · cases h
        simp [List.flatMap_cons]

theorem loopAt_ne_nil (d : Str) (sp : Char) (r : Nat) (hno : ∀ j, j < r → charAt d j ≠ sp) :
    ∀ (k i : Nat) (res cur out : List Str), r - i ≤ k → (cur ≠ [] ∨ i < r) →
      loopAt d sp r i res cur = .ok out → out ≠ [] := by
  intro k
  induction k with
  | zero =>
    intro i res cur out hk hc h
    have hi : ¬ i < r := by omega
    rw [loopAt_end d sp r i res cur hi] at h
    unfold finish at h
    split at h
    · cases h
    · cases h
      rcases hc with hc | hc
      · simp [hc]
      · exact absurd hc hi
  | succ k ih =>
    intro i res cur out hk hc h
    by_cases hi : i < r
    · by_cases hb : charAt d i = '{'
      · rw [loopAt_brace d sp r i res cur hi hb] at h
        split at h
        · cases h
        · rename_i hcnt
          have hm := closing_lt d sp r i hi (not_not.mp hcnt)
          split at h
          · cases h
          · rename_i buf hbuf
            have hbne : buf ≠ [] := by
              unfold groupBuffer at hbuf
              split at hbuf
              · exact parseRange_ok_ne_nil _ _ _ _ _ hbuf
              · split at hbuf
                · rename_i hsp
                  rcases findClosingBrace_sep d sp _ _ _ _ _ hsp with h1 | ⟨j, h1, h2, h3⟩
                  · cases h1
                  · exact absurd h3 (hno j (by omega))
                · cases hbuf
                  simp
            split at h
            · cases h
            · rename_i cur1 happ
              exact ih _ _ _ _ (by omega) (Or.inl (append_ok_ne_nil _ _ _ hbne happ)) h
      · by_cases hs : charAt d i = sp
        · exact absurd hs (hno i hi)
        · rw [loopAt_lit d sp r i res cur hi hb hs] at h
          split at h
          · cases h
          · rename_i cur1 happ
            exact ih _ _ _ _ (by omega) (Or.inl (append_ok_ne_nil _ _ _ (by simp) happ)) h
    · rw [loopAt_end d sp r i res cur hi] at h
      unfold finish at h
      split at h
      · cases h
      · cases h
        rcases hc with hc | hc
        · simp [hc]
        · exact absurd hc hi

theorem charAt_mem (d : Str) (j : Nat) (h : j < d.length) : charAt d j ∈ d := by
  unfold charAt
  rw [List.getD_eq_getElem?_getD, List.getElem?_eq_getElem h]
  exact List.getElem_mem h

theorem expand_ne_nil (text : Str) (sp : Char) (hno : sp ∉ text) (out : List Str)
    (h : expand text sp = .ok out) : out ≠ [] := by
  unfold expand at h
  rw [parseDescription_eq] at h
  split at h
  · cases h
    simp
  · rename_i hl
    refine loopAt_ne_nil text sp text.length ?_ _ 0 [] [] out (le_refl _)
      (Or.inr (by omega)) h
    intro j hj hc
    exact hno (hc ▸ charAt_mem text j hj)

theorem braceCnt_eq (c : Char) (cnt : Int) (h1 : -2147483647 ≤ cnt) (h2 : cnt < 2147483647) :
    braceCnt c cnt = cnt + braceDelta c := by
  unfold braceCnt braceDelta
  by_cases hc1 : c = '}'
  · subst hc1
    have hne : ('}' : Char) ≠ '{' := by decide
    rw [if_pos rfl, if_neg hne, if_neg hne, if_pos rfl, toInt32_eq _ (by omega) (by omega)]
    omega
  · by_cases hc2 : c = '{'
    · subst hc2
      rw [if_neg hc1, if_pos rfl, if_pos rfl, toInt32_eq _ (by omega) (by omega)]
    · rw [if_neg hc1, if_neg hc2, if_neg hc2, if_neg hc1]
      omega

theorem braceDelta_le (c : Char) : braceDelta c ≤ 1 := by
  unfold braceDelta
  split
  · omega
  · split <;> omega

theorem braceDelta_ge (c : Char) : -1 ≤ braceDelta c := by
  unfold braceDelta
  split
  · omega
  · split <;> omega

theorem depthFrom_add (d : Str) :
    ∀ (k1 m k2 : Nat), depthFrom d m (k1 + k2) = depthFrom d m k1 + depthFrom d (m + k1) k2 := by
  intro k1
  induction k1 with
  | zero => intro m k2; simp [depthFrom]
  | succ k1 ih =>
    intro m k2
    have e : k1 + 1 + k2 = (k1 + k2) + 1 := by omega
    rw [e]
    simp only [depthFrom]
    rw [ih (m + 1) k2]
    have e2 : m + 1 + k1 = m + (k1 + 1) := by omega
    rw [e2]
    omega

theorem charAt_beyond (d : Str) (m : Nat) (h : d.length ≤ m) : charAt d m = Char.ofNat 0 := by
  unfold charAt
  rw [List.getD_eq_getElem?_getD, List.getElem?_eq_none h]
  rfl

theorem depthFrom_beyond (d : Str) : ∀ (k m : Nat), d.length ≤ m → depthFrom d m k = 0 := by
  intro k
  induction k with
  | zero => intro m _; rfl
  | succ k ih =>
    intro m h
    simp only [depthFrom]
    rw [charAt_beyond d m h, ih (m + 1) (by omega)]
    decide

theorem depthFrom_take :
    ∀ (k : Nat) (a v : Str),
      depthFrom (a ++ v) a.length k = ((v.take k).count '{' : Int) - (v.take k).count '}' := by
  intro k
  induction k with
  | zero => intro a v; simp [depthFrom]
  | succ k ih =>
    intro a v
    cases v with
    | nil =>
      rw [depthFrom_beyond _ _ _ (by simp)]
      simp
    | cons c v =>
      simp only [depthFrom]
      rw [charAt_at a c v]
      have hd : a ++ c :: v = (a ++ [c]) ++ v := by simp
      have key := ih (a ++ [c]) v
      simp only [List.length_append, List.length_singleton] at key
      rw [hd, key]
      simp only [List.take_succ_cons, List.count_cons]
      unfold braceDelta
      by_cases h1 : c = '{'
      · subst h1
        simp
        omega
      · by_cases h2 : c = '}'
        · subst h2
          simp
          omega
        · simp [h1, h2]

theorem findClosingBrace_closed (d : Str) (sp : Char) :
    ∀ (n m : Nat) (cnt ld : Int) (hs : Bool), 0 < cnt → cnt + n < 2147483648 →
      (findClosingBrace d sp n m cnt ld hs).cnt = 0 →
      ∃ k0, 1 ≤ k0 ∧ k0 ≤ n ∧ (findClosingBrace d sp n m cnt ld hs).m + 1 = m + k0 ∧
        cnt + depthFrom d m k0 = 0 ∧ ∀ k1, k1 < k0 → 0 < cnt + depthFrom d m k1 := by
  intro n
  induction n with
  | zero =>
    intro m cnt ld hs hpos _ h
    simp only [findClosingBrace] at h
    omega
  | succ n ih =>
    intro m cnt ld hs hpos hbound h
    rw [findClosingBrace_succ] at h ⊢
    have hge := braceDelta_ge (charAt d m)
    have hle := braceDelta_le (charAt d m)
    have hbe := braceCnt_eq (charAt d m) cnt (by omega) (by push_cast at hbound; omega)
    rw [hbe] at h ⊢
    by_cases hc : cnt + braceDelta (charAt d m) = 0
    · rw [if_pos hc]
      refine ⟨1, le_refl _, by omega, rfl, ?_, ?_⟩
      · simp only [depthFrom]
        omega
      · intro k1 hk1
        have : k1 = 0 := by omega
        subst this
        simp only [depthFrom]
        omega
    · rw [if_neg hc] at h ⊢
      obtain ⟨k0, h1, h2, h3, h4, h5⟩ := ih (m + 1) _ _ _ (by omega)
        (by push_cast at hbound; omega) h
      refine ⟨k0 + 1, by omega, by omega, by omega, ?_, ?_⟩
      · simp only [depthFrom]
        omega
      · intro k1 hk1
        cases k1 with
        | zero =>
          simp only [depthFrom]
          omega
        | succ k1 =>
          have := h5 k1 (by omega)
          simp only [depthFrom]
          omega

theorem loopAt_unmatched (d : Str) (sp : Char) (r p : Nat) (hp : p < r)
    (hr : r < 2147483648) (hb : charAt d p = '{') (hun : ∀ k, 0 < 1 + depthFrom d (p + 1) k) :
    ∀ (k i : Nat) (res cur : List Str), r - i ≤ k → i ≤ p →
      ∃ e, loopAt d sp r i res cur = .error e := by
  intro k
  induction k with
  | zero => intro i res cur hk hi; omega
  | succ k ih =>
    intro i res cur hk hi
    have hir : i < r := by omega
    by_cases hbi : charAt d i = '{'
    · rw [loopAt_brace d sp r i res cur hir hbi]
      split
      · exact ⟨_, rfl⟩
      · rename_i hcnt
        have hc0 := not_not.mp hcnt
        have hm := closing_lt d sp r i hir hc0
        obtain ⟨k0, h1, h2, h3, h4, h5⟩ :=
          findClosingBrace_closed d sp _ _ 1 (-1) false (by decide) (by omega) hc0
        have hpm : (findClosingBrace d sp (r - (i + 1)) (i + 1) 1 (-1) false).m + 1 ≤ p := by
          by_contra hcon
          by_cases hip : i = p
          · subst hip
            have := hun k0
            omega
          · have hj : i + 1 + (p - (i + 1)) = p := by omega
            have hsplit : k0 = (p - (i + 1)) + ((k0 - (p - (i + 1)) - 1) + 1) := by omega
            have e1 := depthFrom_add d (p - (i + 1)) (i + 1) ((k0 - (p - (i + 1)) - 1) + 1)
            rw [← hsplit, hj] at e1
            simp only [depthFrom] at e1
            rw [hb] at e1
            have e2 := h5 (p - (i + 1)) (by omega)
            have e3 := hun (k0 - (p - (i + 1)) - 1)
            have e4 : braceDelta '{' = 1 := by decide
            omega
        split
        · exact ⟨_, rfl⟩
        · split
          · exact ⟨_, rfl⟩
          · exact ih _ _ _ (by omega) hpm
    · have hip : i ≠ p := fun h => hbi (h ▸ hb)
      by_cases hs : charAt d i = sp
      · rw [loopAt_sep d sp r i res cur hir hbi hs]
        exact ih _ _ _ (by omega) (by omega)
      · rw [loopAt_lit d sp r i res cur hir hbi hs]
        split
        · exact ⟨_, rfl⟩
        · exact ih _ _ _ (by omega) (by omega)

theorem expand_ne_outOfFuel (text : Str) (sp : Char) : expand text sp ≠ .error .outOfFuel :=
  parseDescription_ne_outOfFuel text sp text.length 0

theorem expand_unmatched (text : Str) (sp : Char) (hlen31 : text.length < 2147483648)
    (h : UnmatchedOpen text) :
    ∃ e, expand text sp = .error e ∧ e ≠ .outOfFuel := by
  obtain ⟨u, v, rfl, hv⟩ := h
  have hun : ∀ k, 0 < 1 + depthFrom (u ++ '{' :: v) (u.length + 1) k := by
    intro k
    have hd : u ++ '{' :: v = (u ++ ['{']) ++ v := by simp
    have key := depthFrom_take k (u ++ ['{']) v
    simp only [List.length_append, List.length_singleton] at key
    rw [hd, key]
    have := hv k
    omega
  have hlen : (u ++ '{' :: v).length = u.length + 1 + v.length := by
    simp only [List.length_append, List.length_cons]; omega
  obtain ⟨e, he⟩ := loopAt_unmatched (u ++ '{' :: v) sp (u ++ '{' :: v).length u.length
    (by rw [hlen]; omega) hlen31 (charAt_at u '{' v) hun _ 0 [] [] (le_refl _) (Nat.zero_le _)
  refine ⟨e, ?_, ?_⟩
  · rw [expand_eq_loopAt _ _ (by simp)]
    exact he
  · intro hcon
    have h1 : expand (u ++ '{' :: v) sp = .error e := by
      rw [expand_eq_loopAt _ _ (by simp)]
      exact he
    rw [hcon] at h1
    exact expand_ne_outOfFuel _ _ h1

theorem braceDepth_eq_count (w : Str) :
    braceDepth w = (w.count '{' : Int) - (w.count '}' : Int) := by
  induction w with
  | nil => simp [braceDepth]
  | cons c w ih =>
    simp only [braceDepth, ih, List.count_cons]
    unfold braceDelta
    by_cases h1 : c = '{'
    · subst h1
      simp
      omega
    · by_cases h2 : c = '}'
      · subst h2
        simp
        omega
      · simp [h1, h2]

theorem findClosingBrace_run_depth (sp : Char) (w : Str) :
    ∀ (a0 : Str) (p : Char) (b : Str) (n : Nat) (cnt ld : Int) (hs : Bool),
      (w.length : Int) - 2147483647 ≤ cnt → cnt + w.length < 2147483648 →
      (∀ k, 1 ≤ k → k ≤ w.length → cnt + braceDepth (w.take k) ≠ 0) →
      findClosingBrace ((a0 ++ [p]) ++ (w ++ b)) sp (w.length + n) (a0 ++ [p]).length
          cnt ld hs =
        findClosingBrace ((a0 ++ [p]) ++ (w ++ b)) sp n ((a0 ++ [p]).length + w.length)
          (cnt + braceDepth w) (scanDot p (a0 ++ [p]).length w ld)
          (hs || decide (sp ∈ w)) := by
  induction w with
  | nil => intro a0 p b n cnt ld hs _ _ _; simp [scanDot, braceDepth]
  | cons c w ih =>
    intro a0 p b n cnt ld hs hlo hhi hne
    simp only [List.length_cons] at hlo hhi
    push_cast at hlo hhi
    have hdl := braceDelta_le c
    have hdg := braceDelta_ge c
    have e1 : (c :: w).length + n = (w.length + n) + 1 := by
      simp only [List.length_cons]; omega
    rw [e1, findClosingBrace_succ]
    have hat : charAt ((a0 ++ [p]) ++ (c :: w ++ b)) (a0 ++ [p]).length = c :=
      charAt_at _ c (w ++ b)
    have hpred : charAt ((a0 ++ [p]) ++ (c :: w ++ b)) ((a0 ++ [p]).length - 1) = p :=
      charAt_pred a0 p _
    have h1 : cnt + braceDelta c ≠ 0 := by
      have := hne 1 (le_refl _) (by simp)
      simpa [braceDepth] using this
    rw [hat, braceCnt_eq _ _ (by omega) (by omega), if_neg h1]
    have hd : (a0 ++ [p]) ++ (c :: w ++ b) = ((a0 ++ [p]) ++ [c]) ++ (w ++ b) := by simp
    have hne1 : ∀ k, 1 ≤ k → k ≤ w.length → cnt + braceDelta c + braceDepth (w.take k) ≠ 0 := by
      intro k hk1 hk2
      have := hne (k + 1) (by omega) (by simp only [List.length_cons]; omega)
      simp only [List.take_succ_cons, braceDepth] at this
      omega
    have key := ih (a0 ++ [p]) c b n (cnt + braceDelta c)
      (dotPos ((a0 ++ [p]) ++ (c :: w ++ b)) (a0 ++ [p]).length ld) (sepSeen sp c hs) (by omega) (by omega) hne1
    rw [← hd] at key
    have e2 : ((a0 ++ [p]) ++ [c]).length = (a0 ++ [p]).length + 1 := by simp
    rw [e2] at key
    rw [key]
    have e3 : (a0 ++ [p]).length + 1 + w.length = (a0 ++ [p]).length + (c :: w).length := by
      simp only [List.length_cons]; omega
    rw [e3]
    have e4 : dotPos ((a0 ++ [p]) ++ (c :: w ++ b)) (a0 ++ [p]).length ld =
        (if c = '.' ∧ p = '.' then toInt32 ((a0 ++ [p]).length : Int) else ld) := by
      unfold dotPos
      rw [hat, hpred]
    have e5 : (sepSeen sp c hs || decide (sp ∈ w)) = (hs || decide (sp ∈ c :: w)) := by
      unfold sepSeen
      by_cases hcs : c = sp
      · subst hcs; simp
      · have : ¬ sp = c := fun h => hcs h.symm
        simp [hcs, this]
    have e6 : cnt + braceDelta c + braceDepth w = cnt + braceDepth (c :: w) := by
      simp only [braceDepth]; omega
    rw [e4, e5, e6, scanDot_cons]

theorem findClosingBrace_balanced (sp : Char) (hsp : sp ≠ '}') (a body post : Str)
    (hbal : Balanced body) (hb31 : body.length + 1 < 2147483648) (r : Nat)
    (hr : a.length + 1 + body.length + 1 ≤ r) :
    findClosingBrace (a ++ ('{' :: (body ++ ('}' :: post)))) sp (r - (a.length + 1))
        (a.length + 1) 1 (-1) false =
      ⟨a.length + 1 + body.length, 0, scanDot '{' (a.length + 1) body (-1),
        decide (sp ∈ body)⟩ := by
  obtain ⟨n, hn⟩ : ∃ n, r - (a.length + 1) = body.length + (n + 1) :=
    ⟨r - (a.length + 1) - body.length - 1, by omega⟩
  have hd : a ++ ('{' :: (body ++ ('}' :: post))) = (a ++ ['{']) ++ (body ++ ('}' :: post)) := by
    simp
  have hl : (a ++ ['{']).length = a.length + 1 := by simp
  have hpre : ∀ k, 1 ≤ k → k ≤ body.length → (1 : Int) + braceDepth (body.take k) ≠ 0 := by
    intro k _ hk
    have := hbal.1 k hk
    rw [braceDepth_eq_count]
    omega
  have htot : braceDepth body = 0 := by
    rw [braceDepth_eq_count, hbal.2]
    omega
  rw [hn, hd, ← hl, findClosingBrace_run_depth sp body a '{' _ (n + 1) 1 (-1) false
    (by omega) (by omega) hpre]
  rw [findClosingBrace_succ, htot]
  have hd2 : (a ++ ['{']) ++ (body ++ ('}' :: post)) = ((a ++ ['{']) ++ body) ++ ('}' :: post) := by
    simp
  have hat : charAt ((a ++ ['{']) ++ (body ++ ('}' :: post)))
      ((a ++ ['{']).length + body.length) = '}' := by
    rw [hd2, ← List.length_append]
    exact charAt_at _ _ _
  rw [hat]
  have h0 : braceCnt '}' (1 + 0) = 0 := by decide
  rw [h0, if_pos rfl]
  have hdp : ∀ x : Int, dotPos ((a ++ ['{']) ++ (body ++ ('}' :: post)))
      ((a ++ ['{']).length + body.length) x = x := by
    intro x
    unfold dotPos
    rw [hat]
    simp
  rw [hdp]
  have hss : sepSeen sp '}' (false || decide (sp ∈ body)) = decide (sp ∈ body) := by
    unfold sepSeen
    have : ¬ '}' = sp := fun h => hsp h.symm
    simp [this]
  rw [hss]

theorem loopAt_group_balanced (sp : Char) (hsp : sp ≠ '}') (a body post : Str)
    (hbal : Balanced body) (hb31 : body.length + 1 < 2147483648) (r : Nat)
    (hr : a.length + 1 + body.length + 1 ≤ r) (res cur : List Str) :
    loopAt (a ++ ('{' :: (body ++ ('}' :: post)))) sp r a.length res cur =
      match groupBuffer (a ++ ('{' :: (body ++ ('}' :: post)))) sp a.length
          ⟨a.length + 1 + body.length, 0, scanDot '{' (a.length + 1) body (-1),
            decide (sp ∈ body)⟩ with
      | .error e => .error e
      | .ok buf =>
        match append cur buf with
        | .error e => .error e
        | .ok cur1 =>
          loopAt (a ++ ('{' :: (body ++ ('}' :: post)))) sp r
            (a.length + 1 + body.length + 1) res cur1 := by
  rw [loopAt_brace _ sp r a.length res cur (by omega) (charAt_at a '{' _)]
  rw [findClosingBrace_balanced sp hsp a body post hbal hb31 r hr]
  simp

theorem scanDot_of_pair (w : Str) :
    ∀ (p : Char) (m : Nat) (ld : Int), m + w.length ≤ 2147483648 →
      hasDotPair (p :: w) = true →
      ∃ k, k < w.length ∧ scanDot p m w ld = ((m + k : Nat) : Int) ∧
        (p :: w)[k]? = some '.' ∧ w[k]? = some '.' := by
  induction w with
  | nil => intro p m ld _ h; simp [hasDotPair] at h
  | cons c w ih =>
    intro p m ld hb h
    simp only [List.length_cons] at hb
    have e0 : scanDot p m (c :: w) ld =
        scanDot c (m + 1) w (if c = '.' ∧ p = '.' then (m : Int) else ld) := by
      rw [scanDot_cons, toInt32_index m (by omega)]
    by_cases hp : hasDotPair (c :: w) = true
    · obtain ⟨k, h1, h2, h3, h4⟩ := ih c (m + 1) (if c = '.' ∧ p = '.' then (m : Int) else ld)
        (by omega) hp
      refine ⟨k + 1, by simp only [List.length_cons]; omega, ?_, ?_, ?_⟩
      · rw [e0, h2]
        congr 1
        omega
      · simpa using h3
      · simpa using h4
    · have hp0 : hasDotPair (c :: w) = false := by simpa using hp
      have hpc : p = '.' ∧ c = '.' := by
        have e1 : hasDotPair (p :: c :: w) =
            ((decide (p = '.') && decide (c = '.')) || hasDotPair (c :: w)) := rfl
        rw [e1, hp0] at h
        simpa using h
      refine ⟨0, by simp, ?_, ?_, ?_⟩
      · rw [e0, scanDot_none w c (m + 1) _ hp0, if_pos ⟨hpc.2, hpc.1⟩]
        rfl
      · simp [hpc.1]
      · simp [hpc.2]

theorem groupBuffer_nested_dots (sp : Char) (a u v post : Str) (hdots : hasDotPair v = true)
    (hidx : a.length + u.length + v.length + 2 ≤ 2147483648) :
    groupBuffer (a ++ ('{' :: ((u ++ '{' :: v) ++ ('}' :: post)))) sp a.length
      ⟨a.length + 1 + (u ++ '{' :: v).length, 0,
        scanDot '{' (a.length + 1) (u ++ '{' :: v) (-1),
        decide (sp ∈ (u ++ '{' :: v))⟩ = .error .incorrectLeftNumber := by
  unfold groupBuffer
  rw [scanDot_append]
  have hp : hasDotPair ('{' :: v) = true := by
    rw [hasDotPair_cons _ (by decide)]
    exact hdots
  obtain ⟨k, hk1, hk2, hk3, hk4⟩ := scanDot_of_pair v '{' (a.length + 1 + u.length + 1)
    (if '{' = '.' ∧ ('{' :: u).getLast (by simp) = '.'
      then toInt32 ((a.length + 1 + u.length : Nat) : Int)
      else scanDot '{' (a.length + 1) u (-1)) (by omega) hp
  have hk0 : 1 ≤ k := by
    by_contra hcon
    have : k = 0 := by omega
    subst this
    simp at hk3
  simp only [hk2]
  rw [if_pos (by omega)]
  unfold parseRange
  have e1 : (((a.length + 1 + u.length + 1 + k : Nat) : Int) - 1).toNat =
      (a ++ '{' :: u).length + k := by
    simp only [List.length_append, List.length_cons]
    omega
  have d1 : a ++ ('{' :: ((u ++ '{' :: v) ++ ('}' :: post))) =
      (a ++ '{' :: u) ++ (('{' :: v) ++ ('}' :: post)) := by simp
  have hk5 : k < ('{' :: v).length := by simp only [List.length_cons]; omega
  have hdot : charAt (a ++ ('{' :: ((u ++ '{' :: v) ++ ('}' :: post))))
      ((a ++ '{' :: u).length + k) = '.' := by
    rw [d1, charAt_mid _ _ _ k hk5]
    rw [List.getElem?_eq_getElem hk5] at hk3
    simpa using hk3
  rw [e1, hdot]
  simp only [ne_eq, not_true_eq_false, if_false]
  have hnone : parseId (a ++ ('{' :: ((u ++ '{' :: v) ++ ('}' :: post))))
      (a.length + 1) ((a ++ '{' :: u).length + k) = none := by
    apply parseId_nondigit
    refine ⟨(a ++ '{' :: u).length, ?_, by omega, ?_⟩
    · simp only [List.length_append, List.length_cons]; omega
    · rw [d1]
      have := charAt_at (a ++ '{' :: u) '{' (v ++ '}' :: post)
      simp only [List.cons_append] at this ⊢
      rw [this]
      decide
  rw [hnone]

theorem expand_nested_dots (sp : Char) (h2 : sp ≠ '}') (pre post u v : Str)
    (hpre : '{' ∉ pre ∧ sp ∉ pre) (hbal : Balanced (u ++ '{' :: v))
    (hdots : hasDotPair v = true)
    (hidx : pre.length + u.length + v.length + 2 < 2147483648) :
    expand (pre ++ ('{' :: ((u ++ '{' :: v) ++ ('}' :: post)))) sp =
      .error .incorrectLeftNumber := by
  rw [expand_eq_loopAt _ _ (by simp)]
  have hlenT : (pre ++ ('{' :: ((u ++ '{' :: v) ++ ('}' :: post)))).length =
      pre.length + 1 + (u ++ '{' :: v).length + 1 + post.length := by
    simp only [List.length_append, List.length_cons]; omega
  have step1 := loopAt_litRun sp pre hpre.1 hpre.2 []
    ('{' :: ((u ++ '{' :: v) ++ ('}' :: post)))
    (pre ++ ('{' :: ((u ++ '{' :: v) ++ ('}' :: post)))).length [] []
    (by rw [hlenT]; simp only [List.length_nil]; omega) (by simp [MAX_ADDRESSES])
  simp only [List.nil_append, List.length_nil, Nat.zero_add] at step1
  rw [step1]
  have hb31 : (u ++ '{' :: v).length + 1 < 2147483648 := by
    simp only [List.length_append, List.length_cons]; omega
  rw [loopAt_group_balanced sp h2 pre (u ++ '{' :: v) post hbal hb31 _ (by rw [hlenT]; omega),
    groupBuffer_nested_dots sp pre u v post hdots (by omega)]

theorem findClosingBrace_sep_le (d : Str) (sp : Char) :
    ∀ (n m : Nat) (cnt ld : Int) (hs : Bool),
      (findClosingBrace d sp n m cnt ld hs).have_spliter = true →
        hs = true ∨ ∃ j, m ≤ j ∧ j ≤ (findClosingBrace d sp n m cnt ld hs).m ∧
          charAt d j = sp := by
  intro n
  induction n with
  | zero => intro m cnt ld hs h; left; exact h
  | succ n ih =>
    intro m cnt ld hs h
    rw [findClosingBrace_succ] at h ⊢
    by_cases hc : braceCnt (charAt d m) cnt = 0
    · rw [if_pos hc] at h ⊢
      have h1 : sepSeen sp (charAt d m) hs = true := h
      unfold sepSeen at h1
      by_cases hcs : charAt d m = sp
      · exact Or.inr ⟨m, le_refl _, le_refl _, hcs⟩
      · rw [if_neg hcs] at h1
        exact Or.inl h1
    · rw [if_neg hc] at h ⊢
      have hb := (findClosingBrace_bounds d sp n (m + 1) (braceCnt (charAt d m) cnt)
        (dotPos d m ld) (sepSeen sp (charAt d m) hs)).1
      rcases ih _ _ _ _ h with h1 | ⟨j, h1, h2, h3⟩
      · unfold sepSeen at h1
        by_cases hcs : charAt d m = sp
        · exact Or.inr ⟨m, le_refl _, by omega, hcs⟩
        · rw [if_neg hcs] at h1
          exact Or.inl h1
      · exact Or.inr ⟨j, by omega, h2, h3⟩

theorem findClosingBrace_closing_char (d : Str) (sp : Char) :
    ∀ (n m : Nat) (cnt ld : Int) (hs : Bool), cnt ≠ 0 →
      (findClosingBrace d sp n m cnt ld hs).cnt = 0 →
      charAt d (findClosingBrace d sp n m cnt ld hs).m = '{' ∨
        charAt d (findClosingBrace d sp n m cnt ld hs).m = '}' := by
  intro n
  induction n with
  | zero =>
    intro m cnt ld hs hpos h
    simp only [findClosingBrace] at h
    exact absurd h hpos
  | succ n ih =>
    intro m cnt ld hs hpos h
    rw [findClosingBrace_succ] at h ⊢
    by_cases hc : braceCnt (charAt d m) cnt = 0
    · rw [if_pos hc]
      show charAt d m = '{' ∨ charAt d m = '}'
      by_contra hne
      rw [not_or] at hne
      unfold braceCnt at hc
      rw [if_neg hne.2, if_neg hne.1] at hc
      exact hpos hc
    · rw [if_neg hc] at h ⊢
      exact ih _ _ _ _ hc h

theorem toDigitsCore_ne_nil :
    ∀ (fuel n : Nat) (ds : List Char), (ds ≠ [] ∨ fuel ≠ 0) →
      Nat.toDigitsCore 10 fuel n ds ≠ [] := by
  intro fuel
  induction fuel with
  | zero =>
    intro n ds h
    rcases h with h | h
    · simpa [Nat.toDigitsCore] using h
    · exact absurd rfl h
  | succ fuel ih =>
    intro n ds _
    simp only [Nat.toDigitsCore]
    split
    · simp
    · exact ih _ _ (Or.inl (by simp))

theorem toStringUInt64_ne_nil (n : Nat) : toStringUInt64 n ≠ [] :=
  toDigitsCore_ne_nil (n + 1) n [] (Or.inr (by omega))

theorem parseRange_ok_all_ne (d : Str) (i m : Nat) (ld : Int) (buf : List Str)
    (h : parseRange d i m ld = .ok buf) : ∀ x ∈ buf, x ≠ [] := by
  unfold parseRange at h
  split at h
  · cases h
  · split at h
    · cases h
    · split at h
      · cases h
      · split at h
        · cases h
        · split at h
          · cases h
          · cases h
            intro x hx
            obtain ⟨n, _, rfl⟩ := List.mem_map.mp hx
            exact toStringUInt64_ne_nil n

theorem append_ok_all_ne (cur buf cur1 : List Str) (hc : ∀ x ∈ cur, x ≠ [])
    (hb : ∀ x ∈ buf, x ≠ []) (h : append cur buf = .ok cur1) : ∀ x ∈ cur1, x ≠ [] := by
  unfold append at h
  split at h
  · cases h; exact hc
  · split at h
    · cases h; exact hb
    · split at h
      · cases h
      · cases h
        intro x hx
        simp only [List.mem_flatMap, List.mem_map] at hx
        obtain ⟨a, _, b, hbm, rfl⟩ := hx
        intro hcon
        exact hb b hbm (List.append_eq_nil.mp hcon).2

theorem substr_ne_nil (d : Str) (i len : Nat) (hi : i < d.length) (hl : 0 < len) :
    substr d i len ≠ [] := by
  unfold substr
  intro h
  have := congrArg List.length h
  simp only [List.length_take, List.length_drop, List.length_nil] at this
  omega

theorem loopAt_all_ne (d : Str) (sp : Char) (r : Nat) (hr : r ≤ d.length) (hsp1 : sp ≠ '{')
    (hsp : sp ≠ '}')
    (hrec : ∀ l1 r1, l1 < r1 → r1 < r → ∀ out, parseDescription d l1 r1 sp = .ok out →
      ∀ x ∈ out, x ≠ []) :
    ∀ (k i : Nat) (res cur out : List Str), r - i ≤ k → (∀ x ∈ res, x ≠ []) →
      (∀ x ∈ cur, x ≠ []) → loopAt d sp r i res cur = .ok out → ∀ x ∈ out, x ≠ [] := by
  have hfin : ∀ (res cur out : List Str), (∀ x ∈ res, x ≠ []) → (∀ x ∈ cur, x ≠ []) →
      finish res cur = .ok out → ∀ x ∈ out, x ≠ [] := by
    intro res cur out h1 h2 h
    unfold finish at h
    split at h
    · cases h
    · cases h
      intro x hx
      rcases List.mem_append.mp hx with hx | hx
      · exact h1 x hx
      · exact h2 x hx
  intro k
  induction k with
  | zero =>
    intro i res cur out hk h1 h2 h
    rw [loopAt_end d sp r i res cur (by omega)] at h
    exact hfin res cur out h1 h2 h
  | succ k ih =>
    intro i res cur out hk h1 h2 h
    by_cases hi : i < r
    · by_cases hb : charAt d i = '{'
      · rw [loopAt_brace d sp r i res cur hi hb] at h
        split at h
        · cases h
        · rename_i hcnt
          have hc0 := not_not.mp hcnt
          have hm := closing_lt d sp r i hi hc0
          split at h
          · cases h
          · rename_i buf hbuf
            have hball : ∀ x ∈ buf, x ≠ [] := by
              unfold groupBuffer at hbuf
              split at hbuf
              · exact parseRange_ok_all_ne _ _ _ _ _ hbuf
              · split at hbuf
                · rename_i hhs
                  have hclose := findClosingBrace_closing_char d sp _ _ 1 (-1) false
                    (by decide) hc0
                  rcases findClosingBrace_sep_le d sp _ _ _ _ _ hhs with h3 | ⟨j, h3, h4, h5⟩
                  · cases h3
                  · have hjm : j ≠ (findClosingBrace d sp (r - (i + 1)) (i + 1) 1 (-1) false).m := by
                      intro hcon
                      rw [hcon] at h5
                      rcases hclose with hcl | hcl
                      · rw [hcl] at h5
                        exact hsp1 h5.symm
                      · rw [hcl] at h5
                        exact hsp h5.symm
                    exact hrec _ _ (by omega) hm.2 _ hbuf
                · cases hbuf
                  intro x hx
                  rw [List.mem_singleton.mp hx]
                  exact substr_ne_nil d i _ (by omega) (by omega)
            split at h
            · cases h
            · rename_i cur1 happ
              exact ih _ _ _ _ (by omega) h1 (append_ok_all_ne _ _ _ h2 hball happ) h
      · by_cases hs : charAt d i = sp
        · rw [loopAt_sep d sp r i res cur hi hb hs] at h
          refine ih _ _ _ _ (by omega) ?_ (by simp) h
          intro x hx
          rcases List.mem_append.mp hx with hx | hx
          · exact h1 x hx
          · exact h2 x hx
        · rw [loopAt_lit d sp r i res cur hi hb hs] at h
          split at h
          · cases h
          · rename_i cur1 happ
            refine ih _ _ _ _ (by omega) h1 (append_ok_all_ne _ _ _ h2 ?_ happ) h
            intro x hx
            rw [List.mem_singleton.mp hx]
            exact substr_ne_nil d i 1 (by omega) (by omega)
    · rw [loopAt_end d sp r i res cur hi] at h
      exact hfin res cur out h1 h2 h

theorem parseDescription_all_ne (d : Str) (sp : Char) (hsp1 : sp ≠ '{') (hsp : sp ≠ '}') :
    ∀ (r : Nat), r ≤ d.length → ∀ (l : Nat), l < r → ∀ out,
      parseDescription d l r sp = .ok out → ∀ x ∈ out, x ≠ [] := by
  intro r
  induction r using Nat.strong_induction_on with
  | _ r ih =>
    intro hr l hl out h
    rw [parseDescription_eq, if_neg (by omega)] at h
    exact loopAt_all_ne d sp r hr hsp1 hsp
      (fun l1 r1 h1 h2 => ih r1 h2 (by omega) l1 h1) (r - l) l [] [] out (le_refl _)
      (by simp) (by simp) h

theorem decodeRows_error {ε τ : Type} (getType : Str → τ) (current : Block) :
    ∀ (n i : Nat) (res : List (Str × τ)) (e : ExecError ε),
      decodeRows getType current n i res = .error e → e = .rowOutOfRange := by
  intro n
  induction n with
  | zero => intro i res e h; simp [decodeRows] at h
  | succ n ih =>
    intro i res e h
    simp only [decodeRows] at h
    split at h
    · exact ih _ _ _ h
    · cases h; rfl

theorem readBlocks_error {ε τ : Type} (getType : Str → τ) :
    ∀ (blocks : List Block) (res : List (Str × τ)) (e : ExecError ε),
      readBlocks getType blocks res = .error e → e = .rowOutOfRange := by
  intro blocks
  induction blocks with
  | nil => intro res e h; simp [readBlocks] at h
  | cons b rest ih =>
    intro res e h
    simp only [readBlocks] at h
    split at h
    · rename_i e1 he
      cases h
      exact decodeRows_error getType b _ _ _ _ he
    · exact ih _ _ h

theorem chooseColumns_error {κ ε τ : Type} (remote : κ → Str → Except ε (List Block))
    (getType : Str → τ) (cluster : κ) (database table : Str) (e : ExecError ε)
    (h : chooseColumns remote getType cluster database table = .error e) :
    (∃ cause, e = .resolution cause) ∨ e = .rowOutOfRange := by
  unfold chooseColumns at h
  simp only [] at h
  split at h
  · cases h
    exact Or.inl ⟨_, rfl⟩
  · exact Or.inr (readBlocks_error getType _ _ _ h)

theorem decodeRows_ok {ε τ : Type} (getType : Str → τ) :
    ∀ (names types : List Str) (done_names done_types : List Str) (res : List (Str × τ)),
      names.length = types.length → done_names.length = done_types.length →
      decodeRows (ε := ε) getType ⟨done_names ++ names, done_types ++ types⟩ names.length
          done_names.length res =
        .ok (res ++ List.zipWith (fun n t => (n, getType t)) names types) := by
  intro names
  induction names with
  | nil =>
    intro types dn dt res h _
    cases types with
    | nil => simp [decodeRows]
    | cons t ts => simp at h
  | cons n ns ih =>
    intro types dn dt res h hd
    cases types with
    | nil => simp at h
    | cons t ts =>
      simp only [List.length_cons, decodeRows]
      have h1 : (dn ++ n :: ns)[dn.length]? = some n := by
        rw [List.getElem?_append_right (le_refl _)]
        simp
      have h2 : (dt ++ t :: ts)[dn.length]? = some t := by
        rw [hd, List.getElem?_append_right (le_refl _)]
        simp
      rw [h1, h2]
      simp only []
      have key := ih ts (dn ++ [n]) (dt ++ [t]) (res ++ [(n, getType t)])
        (by simpa using h) (by simp [hd])
      simp only [List.append_assoc, List.singleton_append, List.length_append,
        List.length_singleton] at key
      rw [key]
      simp

theorem readBlocks_ok {ε τ : Type} (getType : Str → τ) :
    ∀ (blocks : List Block) (res : List (Str × τ)),
      (∀ b ∈ blocks, b.name.length = b.type.length) →
      readBlocks (ε := ε) getType blocks res =
        .ok (res ++ blocks.flatMap fun b =>
          List.zipWith (fun n t => (n, getType t)) b.name b.type) := by
  intro blocks
  induction blocks with
  | nil => intro res _; simp [readBlocks]
  | cons b rest ih =>
    intro res h
    simp only [readBlocks]
    have key := decodeRows_ok (ε := ε) getType b.name b.type [] [] res (h b (by simp)) rfl
    simp only [List.nil_append, List.length_nil] at key
    rw [key]
    simp only []
    rw [ih _ (fun x hx => h x (List.mem_cons_of_mem _ hx))]
    simp [List.flatMap_cons]

theorem execute_failure_state {κ ε τ : Type} (newCluster : List (List Str) → Except ε κ)
    (remote : κ → Str → Except ε (List Block)) (getType : Str → τ)
    (ast_function : ASTFunction) (cluster : Option κ) (e : ExecError ε)
    (h : (execute newCluster remote getType ast_function cluster).result = .error e) :
    ((e = .numberOfArgumentsDoesntMatch ∨ e = .badCast ∨ e = .badGet) →
        (execute newCluster remote getType ast_function cluster).ast = ast_function ∧
        (execute newCluster remote getType ast_function cluster).cluster = cluster) ∧
      (((∃ p, e = .badArguments p) ∨ ∃ cause, e = .clusterConstruction cause) →
        ∃ descripton remote_database k1 remote_table k2,
          ast_function = ⟨[.expressionList [.literal (.string descripton),
            .identifier remote_database k1, .identifier remote_table k2]]⟩ ∧
          (execute newCluster remote getType ast_function cluster).ast =
            ⟨[.expressionList [.literal (.string descripton),
              .identifier remote_database .Database, .identifier remote_table .Table]]⟩ ∧
          (execute newCluster remote getType ast_function cluster).cluster = cluster ∧
          ((∃ p, e = .badArguments p ∧ buildNames descripton = .error p) ∨
            ∃ names cause, e = .clusterConstruction cause ∧
              buildNames descripton = .ok names ∧ newCluster names = .error cause)) ∧
      (((∃ cause, e = .resolution cause) ∨ e = .rowOutOfRange) →
        ∃ descripton remote_database k1 remote_table k2 names cl,
          ast_function = ⟨[.expressionList [.literal (.string descripton),
            .identifier remote_database k1, .identifier remote_table k2]]⟩ ∧
          (execute newCluster remote getType ast_function cluster).ast =
            ⟨[.expressionList [.literal (.string descripton),
              .identifier remote_database .Database, .identifier remote_table .Table]]⟩ ∧
          buildNames descripton = .ok names ∧ newCluster names = .ok cl ∧
          chooseColumns remote getType cl remote_database remote_table = .error e ∧
          (execute newCluster remote getType ast_function cluster).cluster = some cl) := by
  unfold execute at h ⊢
  split
  · rename_i hlen
    rw [if_pos hlen] at h
    cases h
    simp
  · rename_i hlen
    rw [if_neg hlen] at h
    split
    · rename_i args rest hch
      rw [hch] at h
      simp only [] at h
      split
      · rename_i hargs
        rw [if_pos hargs] at h
        cases h
        simp
      · rename_i hargs
        rw [if_neg hargs] at h
        split
        · rename_i descripton db k1 tbl k2
          have hast : ast_function = ⟨[.expressionList [.literal (.string descripton),
              .identifier db k1, .identifier tbl k2]]⟩ := by
            cases ast_function with
            | mk children =>
              simp only at hch hlen
              subst hch
              simp only [List.length_cons, ne_eq, not_not] at hlen
              have hr : rest = [] := by
                cases rest with
                | nil => rfl
                | cons x xs => simp at hlen
              subst hr
              rfl
          have htag : tagIdentifiers ast_function = ⟨[.expressionList [.literal (.string descripton),
              .identifier db .Database, .identifier tbl .Table]]⟩ := by
            rw [hast]
            rfl
          simp only [] at h
          split
          · rename_i pe hb
            rw [hb] at h
            cases h
            refine ⟨fun hc => ?_, fun _ => ?_, fun hc => ?_⟩
            · rcases hc with hc | hc | hc <;> cases hc
            · exact ⟨descripton, db, k1, tbl, k2, hast, htag, rfl, Or.inl ⟨pe, rfl, hb⟩⟩
            · rcases hc with ⟨c, hc⟩ | hc <;> cases hc
          · rename_i names hb
            rw [hb] at h
            simp only [] at h
            split
            · rename_i cause hc
              rw [hc] at h
              cases h
              refine ⟨fun hc => ?_, fun _ => ?_, fun hc => ?_⟩
              · rcases hc with hc | hc | hc <;> cases hc
              · exact ⟨descripton, db, k1, tbl, k2, hast, htag, rfl,
                  Or.inr ⟨names, cause, rfl, hb, hc⟩⟩
              · rcases hc with ⟨c, hc⟩ | hc <;> cases hc
            · rename_i cl hc
              rw [hc] at h
              simp only [] at h
              split
              · rename_i e1 hcc
                rw [hcc] at h
                cases h
                have hkind := chooseColumns_error remote getType cl db tbl e hcc
                refine ⟨fun hc1 => ?_, fun hc1 => ?_, fun _ => ?_⟩
                · rcases hkind with ⟨c, rfl⟩ | rfl
                  · rcases hc1 with hc1 | hc1 | hc1 <;> cases hc1
                  · rcases hc1 with hc1 | hc1 | hc1 <;> cases hc1
                · rcases hkind with ⟨c, rfl⟩ | rfl
                  · rcases hc1 with ⟨c1, hc1⟩ | ⟨c1, hc1⟩ <;> cases hc1
                  · rcases hc1 with ⟨c1, hc1⟩ | ⟨c1, hc1⟩ <;> cases hc1
                · exact ⟨descripton, db, k1, tbl, k2, names, cl, hast, htag, hb, hc, hcc, rfl⟩
              · rename_i cols hcc
                rw [hcc] at h
                cases h
        · cases h
          simp
        · simp only [] at h
          cases h
          simp
    · rename_i hch
      simp only [] at h
      cases h
      simp

theorem parseIdSteps_lt (d : Str) :
    ∀ (n pos res : Nat), res ≤ 10 ^ 15 → ∀ v ∈ parseIdSteps d n pos res, v < 2 ^ 64 := by
  intro n
  induction n with
  | zero => intro pos res _ v hv; simp [parseIdSteps] at hv
  | succ n ih =>
    intro pos res hres v hv
    simp only [parseIdSteps] at hv
    by_cases hdig : isdigit (charAt d pos) = true
    · simp only [hdig, Bool.not_true, Bool.false_eq_true, if_false] at hv
      obtain ⟨h1, h2⟩ := isdigit_bounds hdig
      rcases List.mem_cons.mp hv with hv | hv
      · rw [hv]
        norm_num at hres ⊢
        omega
      · split at hv
        · simp at hv
        · rename_i hle
          exact ih _ _ (by omega) v hv
    · simp [hdig] at hv

theorem split_at_range (d : Str) (l r : Nat) (hlr : l ≤ r) (hr : r ≤ d.length) :
    d = d.take l ++ (substr d l (r - l) ++ d.drop r) ∧ (d.take l).length = l ∧
      (substr d l (r - l)).length = r - l := by
  refine ⟨?_, ?_, ?_⟩
  · unfold substr
    have h1 : d.drop r = (d.drop l).drop (r - l) := by
      rw [List.drop_drop]
      congr 1
      omega
    rw [h1, List.take_append_drop, List.take_append_drop]
  · simp only [List.length_take]
    omega
  · unfold substr
    simp only [List.length_take, List.length_drop]
    omega

theorem parseId_at (d : Str) (l r : Nat) (hlr : l ≤ r) (hr : r ≤ d.length) :
    parseId d l r =
      if allDigits (substr d l (r - l)) ∧ digitsValue (substr d l (r - l)) ≤ 10 ^ 15 then
        some (digitsValue (substr d l (r - l)))
      else none := by
  obtain ⟨h1, h2, h3⟩ := split_at_range d l r hlr hr
  have key := parseId_spec (d.take l) (substr d l (r - l)) (d.drop r)
  rw [← h1, h2, h3] at key
  have e : l + (r - l) = r := by omega
  rw [e] at key
  exact key

theorem flatMap_map_length {α β γ : Type} (f : α → β → γ) (ys : List β) :
    ∀ (xs : List α), (xs.flatMap fun a => ys.map (f a)).length = xs.length * ys.length := by
  intro xs
  induction xs with
  | nil => simp
  | cons x xs ih =>
    simp only [List.flatMap_cons, List.length_append, List.length_map, ih, List.length_cons]
    rw [Nat.add_mul]
    omega

theorem flatMap_map_getElem? {α β γ : Type} (f : α → β → γ) (ys : List β) :
    ∀ (xs : List α) (i j : Nat) (hi : i < xs.length) (hj : j < ys.length),
      (xs.flatMap fun a => ys.map (f a))[i * ys.length + j]? = some (f xs[i] ys[j]) := by
  intro xs
  induction xs with
  | nil => intro i j hi _; simp at hi
  | cons x xs ih =>
    intro i j hi hj
    simp only [List.flatMap_cons]
    cases i with
    | zero =>
      simp only [Nat.zero_mul, Nat.zero_add, List.getElem_cons_zero]
      rw [List.getElem?_append_left (by simpa using hj)]
      simp [hj]
    | succ i =>
      have hi1 : i < xs.length := by simpa using hi
      have e : (i + 1) * ys.length + j = (ys.map (f x)).length + (i * ys.length + j) := by
        simp only [List.length_map]
        rw [Nat.add_mul]
        omega
      rw [e, List.getElem?_append_right (by omega)]
      have e2 : (ys.map (f x)).length + (i * ys.length + j) - (ys.map (f x)).length =
          i * ys.length + j := by omega
      rw [e2, ih i j hi1 hj]
      simp

theorem append_nonempty (to_ what : List Str) (h1 : to_ ≠ []) (h2 : what ≠ []) :
    append to_ what =
      if (what.length * to_.length) % SIZE_MOD > MAX_ADDRESSES then .error .tooManyAddresses
      else .ok (to_.flatMap fun a => what.map fun b => a ++ b) := by
  unfold append
  cases to_ with
  | nil => exact absurd rfl h1
  | cons x xs =>
    cases what with
    | nil => exact absurd rfl h2
    | cons y ys => simp

theorem limitOnly_refl (x : Except ParseError (List Str)) : LimitOnly x x := by
  cases x with
  | ok out => exact rfl
  | error e => exact Or.inr rfl

theorem limitOnly_limit (y : Except ParseError (List Str)) :
    LimitOnly (.error .tooManyAddresses) y :=
  Or.inl rfl

theorem append_limitOnly (cur buf : List Str) :
    LimitOnly (append cur buf) (.ok (appendUnbounded cur buf)) := by
  unfold append appendUnbounded
  split
  · exact rfl
  · split
    · exact rfl
    · split
      · exact Or.inl rfl
      · exact rfl

theorem parseRange_limitOnly (d : Str) (i m : Nat) (ld : Int) :
    LimitOnly (parseRange d i m ld) (parseRangeUnbounded d i m ld) := by
  unfold parseRange parseRangeUnbounded
  split
  · exact Or.inr rfl
  · split
    · exact Or.inr rfl
    · split
      · exact Or.inr rfl
      · split
        · exact Or.inr rfl
        · split
          · exact Or.inl rfl
          · exact rfl

theorem finish_limitOnly (res cur : List Str) :
    LimitOnly (finish res cur) (.ok (res ++ cur)) := by
  unfold finish
  split
  · exact Or.inl rfl
  · exact rfl

theorem parseLoop_limitOnly (rec1 rec2 : Nat → Nat → Except ParseError (List Str))
    (hrec : ∀ l r, LimitOnly (rec1 l r) (rec2 l r)) (d : Str) (sp : Char) (r : Nat) :
    ∀ (n i : Nat) (res cur : List Str),
      LimitOnly (parseLoop rec1 d sp r n i res cur)
        (parseLoopUnbounded rec2 d sp r n i res cur) := by
  intro n
  induction n with
  | zero =>
    intro i res cur
    simp only [parseLoop, parseLoopUnbounded]
    split
    · exact Or.inr rfl
    · exact finish_limitOnly res cur
  | succ n ih =>
    intro i res cur
    simp only [parseLoop, parseLoopUnbounded]
    split
    · split
      · split
        · exact Or.inr rfl
        · have hbuf : LimitOnly
              (if (findClosingBrace d sp (r - (i + 1)) (i + 1) 1 (-1) false).last_dot ≠ -1 then
                parseRange d i (findClosingBrace d sp (r - (i + 1)) (i + 1) 1 (-1) false).m
                  (findClosingBrace d sp (r - (i + 1)) (i + 1) 1 (-1) false).last_dot
              else if (findClosingBrace d sp (r - (i + 1)) (i + 1) 1 (-1) false).have_spliter
                  = true then
                rec1 (i + 1) (findClosingBrace d sp (r - (i + 1)) (i + 1) 1 (-1) false).m
              else .ok [substr d i
                ((findClosingBrace d sp (r - (i + 1)) (i + 1) 1 (-1) false).m - i + 1)])
              (if (findClosingBrace d sp (r - (i + 1)) (i + 1) 1 (-1) false).last_dot ≠ -1 then
                parseRangeUnbounded d i
                  (findClosingBrace d sp (r - (i + 1)) (i + 1) 1 (-1) false).m
                  (findClosingBrace d sp (r - (i + 1)) (i + 1) 1 (-1) false).last_dot
              else if (findClosingBrace d sp (r - (i + 1)) (i + 1) 1 (-1) false).have_spliter
                  = true then
                rec2 (i + 1) (findClosingBrace d sp (r - (i + 1)) (i + 1) 1 (-1) false).m
              else .ok [substr d i
                ((findClosingBrace d sp (r - (i + 1)) (i + 1) 1 (-1) false).m - i + 1)]) := by
            split
            · exact parseRange_limitOnly _ _ _ _
            · split
              · exact hrec _ _
              · exact rfl
          revert hbuf
          generalize (if (findClosingBrace d sp (r - (i + 1)) (i + 1) 1 (-1) false).last_dot ≠ -1 then
                parseRange d i (findClosingBrace d sp (r - (i + 1)) (i + 1) 1 (-1) false).m
                  (findClosingBrace d sp (r - (i + 1)) (i + 1) 1 (-1) false).last_dot
              else if (findClosingBrace d sp (r - (i + 1)) (i + 1) 1 (-1) false).have_spliter
                  = true then
                rec1 (i + 1) (findClosingBrace d sp (r - (i + 1)) (i + 1) 1 (-1) false).m
              else .ok [substr d i
                ((findClosingBrace d sp (r - (i + 1)) (i + 1) 1 (-1) false).m - i + 1)]) = b1
          generalize (if (findClosingBrace d sp (r - (i + 1)) (i + 1) 1 (-1) false).last_dot ≠ -1 then
                parseRangeUnbounded d i
                  (findClosingBrace d sp (r - (i + 1)) (i + 1) 1 (-1) false).m
                  (findClosingBrace d sp (r - (i + 1)) (i + 1) 1 (-1) false).last_dot
              else if (findClosingBrace d sp (r - (i + 1)) (i + 1) 1 (-1) false).have_spliter
                  = true then
                rec2 (i + 1) (findClosingBrace d sp (r - (i + 1)) (i + 1) 1 (-1) false).m
              else .ok [substr d i
                ((findClosingBrace d sp (r - (i + 1)) (i + 1) 1 (-1) false).m - i + 1)]) = b2
          intro hbuf
          cases b1 with
          | error e =>
            rcases hbuf with h | h
            · subst h
              exact Or.inl rfl
            · subst h
              exact Or.inr rfl
          | ok buf =>
            have hb2 : b2 = .ok buf := hbuf
            subst hb2
            simp only []
            have happ := append_limitOnly cur buf
            revert happ
            generalize append cur buf = a1
            intro happ
            cases a1 with
            | error e =>
              rcases happ with h | h
              · subst h
                exact Or.inl rfl
              · cases h
            | ok cur1 =>
              have hc : appendUnbounded cur buf = cur1 := by
                have h : (Except.ok (appendUnbounded cur buf) : Except ParseError (List Str)) =
                    .ok cur1 := happ
                cases h
                rfl
              rw [hc]
              exact ih _ _ _
      · split
        · exact ih _ _ _
        · have happ := append_limitOnly cur [substr d i 1]
          revert happ
          generalize append cur [substr d i 1] = a1
          intro happ
          cases a1 with
          | error e =>
            rcases happ with h | h
            · subst h
              exact Or.inl rfl
            · cases h
          | ok cur1 =>
            have hc : appendUnbounded cur [substr d i 1] = cur1 := by
              have h : (Except.ok (appendUnbounded cur [substr d i 1]) :
                  Except ParseError (List Str)) = .ok cur1 := happ
              cases h
              rfl
            rw [hc]
            exact ih _ _ _
    · exact finish_limitOnly res cur

theorem parseDescriptionFuel_limitOnly (d : Str) (sp : Char) :
    ∀ (fuel l r : Nat),
      LimitOnly (parseDescriptionFuel d sp fuel l r)
        (parseDescriptionUnboundedFuel d sp fuel l r) := by
  intro fuel
  induction fuel with
  | zero =>
    intro l r
    exact Or.inr rfl
  | succ fuel ih =>
    intro l r
    simp only [parseDescriptionFuel, parseDescriptionUnboundedFuel]
    split
    · exact rfl
    · exact parseLoop_limitOnly _ _ (fun l1 r1 => ih l1 r1) d sp r _ _ _ _

theorem expand_limitOnly (text : Str) (sp : Char) :
    LimitOnly (expand text sp) (expandUnbounded text sp) :=
  parseDescriptionFuel_limitOnly text sp _ _ _

theorem expand_complete (text : Str) (sp : Char) :
    (∀ out, expand text sp = .ok out →
        out.length ≤ MAX_ADDRESSES ∧ expandUnbounded text sp = .ok out) ∧
      (∀ full, expandUnbounded text sp = .ok full → MAX_ADDRESSES < full.length →
        expand text sp = .error .tooManyAddresses) := by
  have key := expand_limitOnly text sp
  constructor
  · intro out h
    rw [h] at key
    exact ⟨parseDescription_ok_length text sp 0 text.length out h, key⟩
  · intro full hfull hlen
    revert key
    cases hx : expand text sp with
    | ok out =>
      intro key
      have h1 : expandUnbounded text sp = .ok out := key
      rw [hfull] at h1
      cases h1
      have := parseDescription_ok_length text sp 0 text.length full hx
      omega
    | error e =>
      intro key
      rcases key with h | h
      · rw [h]
      · rw [hfull] at h
        cases h

/-- C1. For every text and every separator, a list that `expand` returns has at most
200 (`MAX_ADDRESSES`) entries and is the complete expansion of the text, the one that
is built when no address limit is applied (`expandUnbounded`): it is neither longer nor
cut; and whenever the complete expansion has more than 200 entries `expand` returns no
list, it throws the address-limit exception. -/
theorem C1_expand_at_most_max_addresses (text : Str) (sep : Char) :
    (∀ out, expand text sep = .ok out →
        out.length ≤ 200 ∧ expandUnbounded text sep = .ok out) ∧
      (∀ full, expandUnbounded text sep = .ok full → 200 < full.length →
        expand text sep = .error .tooManyAddresses) :=
  expand_complete text sep

set_option maxRecDepth 100000 in
/-- Witness of C1: the three addresses of `abc{8..10}def` are its complete expansion,
and `{1..201}`, whose complete expansion has 201 entries, is rejected. -/
theorem C1_expand_at_most_max_addresses_witness :
    (["abc8def".toList, "abc9def".toList, "abc10def".toList].length ≤ 200 ∧
        expandUnbounded "abc{8..10}def".toList ',' =
          .ok ["abc8def".toList, "abc9def".toList, "abc10def".toList]) ∧
      expand "{1..201}".toList ',' = .error .tooManyAddresses :=
  ⟨(C1_expand_at_most_max_addresses "abc{8..10}def".toList ',').1
      ["abc8def".toList, "abc9def".toList, "abc10def".toList] (by decide),
    (C1_expand_at_most_max_addresses "{1..201}".toList ',').2
      ((List.range' 1 201).map toStringUInt64) (by decide)
      (by rw [List.length_map, List.length_range']; decide)⟩

/-- C5. Top-level alternation: for every separator that `parseDescription` is called
with (`,` at source line 58, `|` at line 60, the same one at line 214; the proof needs
only that it is not `{`) and every list of between 1 and 200 non-empty segments, none
containing `{` or the separator, `expand (s1 ++ sep ++ ... ++ sep ++ sn) sep` returns
`[s1, ..., sn]` in order. -/
theorem C5_top_level_alternation (sep : Char) (hsep : sep ≠ '{') (segs : List Str)
    (hn1 : 1 ≤ segs.length) (hn2 : segs.length ≤ 200)
    (hall : ∀ s ∈ segs, s ≠ [] ∧ '{' ∉ s ∧ sep ∉ s) :
    expand (joinWith sep segs) sep = .ok segs := by
  have hne : segs ≠ [] := by
    intro h
    rw [h] at hn1
    simp at hn1
  rw [expand_eq_loopAt _ _ (joinWith_ne_nil sep segs hne (fun s hs => (hall s hs).1))]
  have key := loopAt_segments sep hsep segs hne hall [] [] []
  simp only [List.nil_append, List.append_nil, List.length_nil, Nat.zero_add] at key
  rw [key]
  unfold finish
  simp only [List.append_nil, MAX_ADDRESSES]
  rw [if_neg (by omega)]

/-- Witness of C5 at `host1,host2`. -/
theorem C5_top_level_alternation_witness :
    expand "host1,host2".toList ',' = .ok ["host1".toList, "host2".toList] :=
  C5_top_level_alternation ',' (by decide) ["host1".toList, "host2".toList]
    (by decide) (by decide) (by decide)

/-- C3. Alternation group: for `sep` one of `,` and `|`, a literal prefix and suffix
holding neither `{` nor `sep`, and between 2 and 200 non-empty alternatives, each
holding none of `{`, `}`, `sep` and no two adjacent dots,
`expand (pre ++ "{" ++ x1 ++ sep ++ ... ++ sep ++ xn ++ "}" ++ post) sep` is
`[pre ++ x1 ++ post, ..., pre ++ xn ++ post]` in the written order. -/
theorem C3_alternation_group (sep : Char) (hsep : sep = ',' ∨ sep = '|') (pre post : Str)
    (xs : List Str) (hpre : '{' ∉ pre ∧ sep ∉ pre) (hpost : '{' ∉ post ∧ sep ∉ post)
    (hn1 : 2 ≤ xs.length) (hn2 : xs.length ≤ 200)
    (hxs : ∀ x ∈ xs, x ≠ [] ∧ '{' ∉ x ∧ '}' ∉ x ∧ sep ∉ x ∧ hasDotPair x = false) :
    expand (pre ++ ['{'] ++ joinWith sep xs ++ ['}'] ++ post) sep =
      .ok (xs.map fun x => pre ++ x ++ post) := by
  have hs1 : sep ≠ '{' := by rcases hsep with h | h <;> rw [h] <;> decide
  have hs2 : sep ≠ '}' := by rcases hsep with h | h <;> rw [h] <;> decide
  have hs3 : sep ≠ '.' := by rcases hsep with h | h <;> rw [h] <;> decide
  have hd : pre ++ ['{'] ++ joinWith sep xs ++ ['}'] ++ post =
      pre ++ ('{' :: (joinWith sep xs ++ ('}' :: post))) := by simp
  have hne : xs ≠ [] := by
    intro h
    rw [h] at hn1
    simp at hn1
  rw [hd]
  exact expand_single_group sep hs2 pre (joinWith sep xs) post hpre.1 hpre.2 hpost.1 hpost.2
    (not_mem_joinWith sep '{' xs (Ne.symm hs1) (fun x hx => (hxs x hx).2.1))
    (not_mem_joinWith sep '}' xs (Ne.symm hs2) (fun x hx => (hxs x hx).2.2.1))
    xs hne hn2
    (groupBuffer_alternation sep hs1 hs3 pre post xs hn1 hn2
      (fun x hx => ⟨(hxs x hx).1, (hxs x hx).2.1, (hxs x hx).2.2.2.1, (hxs x hx).2.2.2.2⟩))

/-- Witness of C3: `abc{x,yy,z}def` expands to `abcxdef`, `abcyydef`, `abczdef`. -/
theorem C3_alternation_group_witness :
    expand "abc{x,yy,z}def".toList ',' =
      .ok ["abcxdef".toList, "abcyydef".toList, "abczdef".toList] :=
  C3_alternation_group ',' (by decide) "abc".toList "def".toList
    ["x".toList, "yy".toList, "z".toList] (by decide) (by decide) (by decide) (by decide)
    (by decide)

/-- C4 as stated fails when the range bounds exceed `10^15`: with `L = R = 10^16` the
descriptor `{10000000000000000..10000000000000000}{0|1}` meets the hypotheses of the
claim (one number, two replicas), and the shard pass rejects the left number. -/
theorem C4_counterexample_large_bound :
    allDigits "10000000000000000".toList ∧
      digitsValue "10000000000000000".toList - digitsValue "10000000000000000".toList + 1
        ≤ 200 ∧
      buildNames "{10000000000000000..10000000000000000}{0|1}".toList =
        .error .incorrectLeftNumber := by
  decide

/-- C4 (amended). Two-pass expansion: for literals `pre`, `mid` and non-empty replica
names `r1, ..., rk` holding none of `{`, `}`, `,`, `|` (the `ri` without adjacent dots),
`2 ≤ k ≤ 200`, digit strings `L`, `R` denoting `a ≤ b ≤ 10^15` with
`b - a + 1 ≤ 200`, and a descriptor shorter than `2^31` characters (the index of the
dots fits the `int` variable `last_dot`), the shard pass with `,` followed by the replica pass with `|` on
`pre ++ "{" ++ L ++ ".." ++ R ++ "}" ++ mid ++ "{" ++ r1 ++ "|" ++ ... ++ "|" ++ rk ++ "}"`
yields the `b - a + 1` shards of `n = a, ..., b` in ascending order, the shard of `n`
having exactly the replicas `pre ++ dec n ++ mid ++ r1, ..., pre ++ dec n ++ mid ++ rk`. -/
theorem C4_two_pass_expansion (pre mid L R : Str) (rs : List Str)
    (hpre : '{' ∉ pre ∧ '}' ∉ pre ∧ ',' ∉ pre ∧ '|' ∉ pre)
    (hmid : '{' ∉ mid ∧ '}' ∉ mid ∧ ',' ∉ mid ∧ '|' ∉ mid)
    (hrs : ∀ x ∈ rs, x ≠ [] ∧ '{' ∉ x ∧ '}' ∉ x ∧ ',' ∉ x ∧ '|' ∉ x ∧ hasDotPair x = false)
    (hk1 : 2 ≤ rs.length) (hk2 : rs.length ≤ 200)
    (hL : allDigits L) (hR : allDigits R)
    (hab : digitsValue L ≤ digitsValue R) (hb : digitsValue R ≤ 10 ^ 15)
    (hcnt : digitsValue R - digitsValue L + 1 ≤ 200)
    (hlen : (pre ++ ['{'] ++ L ++ ['.', '.'] ++ R ++ ['}'] ++ mid ++ ['{'] ++
        joinWith '|' rs ++ ['}']).length < 2147483648) :
    buildNames (pre ++ ['{'] ++ L ++ ['.', '.'] ++ R ++ ['}'] ++ mid ++ ['{'] ++
        joinWith '|' rs ++ ['}']) =
      .ok ((List.range' (digitsValue L) (digitsValue R - digitsValue L + 1)).map
        fun n => rs.map fun ri => pre ++ Nat.toDigits 10 n ++ mid ++ ri) :=
  buildNames_range_alternation pre mid L R rs hpre hmid hrs hk1 hk2 hL hR hab hb hcnt (by
    simp only [List.length_append, List.length_cons, List.length_nil] at hlen
    omega)

/-- Witness of C4: `abc{1..9}de{0|1}` gives 9 shards, each with the 2 replicas `abcNde0`
and `abcNde1`. -/
theorem C4_two_pass_expansion_witness :
    buildNames "abc{1..9}de{0|1}".toList =
      .ok ((List.range' 1 9).map fun n =>
        ["0".toList, "1".toList].map fun ri =>
          "abc".toList ++ Nat.toDigits 10 n ++ "de".toList ++ ri) :=
  C4_two_pass_expansion "abc".toList "de".toList "1".toList "9".toList
    ["0".toList, "1".toList] (by decide) (by decide) (by decide) (by decide) (by decide)
    (by decide) (by decide) (by decide) (by decide) (by decide) (by decide)

/-- C6 as stated fails: the descriptor `{1..200}{a|b}` is accepted. The shard pass gives
the 200 tokens `N{a|b}`, the replica pass gives 2 replicas for each of them, and `names`
is handed to the `Cluster` constructor with 400 (shard, replica) pairs. -/
theorem C6_counterexample_combined_total :
    (buildNames "{1..200}{a|b}".toList).map totalAddresses = .ok 400 := by
  have h := buildNames_range_alternation [] [] "1".toList "200".toList
    ["a".toList, "b".toList] (by decide) (by decide) (by decide) (by decide) (by decide)
    (by decide) (by decide) (by decide) (by decide) (by decide) (by decide)
  have hd : "{1..200}{a|b}".toList = [] ++ ['{'] ++ "1".toList ++ ['.', '.'] ++ "200".toList ++
      ['}'] ++ [] ++ ['{'] ++ joinWith '|' ["a".toList, "b".toList] ++ ['}'] := by decide
  have h1 : digitsValue "1".toList = 1 := by decide
  have h200 : digitsValue "200".toList = 200 := by decide
  rw [h1, h200] at h
  rw [hd, h]
  show Except.ok (totalAddresses _) = Except.ok 400
  unfold totalAddresses
  have hsum : ∀ l : List Nat, (l.map (List.length ∘ fun n =>
      List.map (fun ri => [] ++ Nat.toDigits 10 n ++ [] ++ ri) ["a".toList, "b".toList])).sum =
      l.length * 2 := fun l => sum_map_const l _ 2 (fun n => rfl)
  rw [List.map_map, hsum, List.length_range']

/-- C6 (amended). Whenever the construction of the name table succeeds, it has at most
200 shards and each shard has at most 200 replicas, hence at most 40000 pairs in all;
the total over the shards is not compared with `MAX_ADDRESSES`. -/
theorem C6_shard_and_replica_bounds (descripton : Str) (names : List (List Str))
    (h : buildNames descripton = .ok names) :
    names.length ≤ 200 ∧ (∀ shard ∈ names, shard.length ≤ 200) ∧
      totalAddresses names ≤ 200 * 200 := by
  obtain ⟨h1, h2⟩ := buildNames_bounds descripton names h
  refine ⟨h1, h2, ?_⟩
  unfold totalAddresses
  have h3 := sum_le_of_forall_le MAX_ADDRESSES (names.map List.length) (by
    intro x hx
    obtain ⟨s, hs, rfl⟩ := List.mem_map.mp hx
    exact h2 s hs)
  rw [List.length_map] at h3
  unfold MAX_ADDRESSES at h1 h3
  calc (names.map List.length).sum ≤ names.length * 200 := h3
    _ ≤ 200 * 200 := Nat.mul_le_mul_right _ h1

/-- Witness of C6 (amended) at `abc{1..9}de{0|1}`: 9 shards of 2 replicas. -/
theorem C6_shard_and_replica_bounds_witness :
    ((List.range' 1 9).map fun n => ["0".toList, "1".toList].map fun ri =>
        "abc".toList ++ Nat.toDigits 10 n ++ "de".toList ++ ri).length ≤ 200 ∧
      (∀ shard ∈ ((List.range' 1 9).map fun n => ["0".toList, "1".toList].map fun ri =>
        "abc".toList ++ Nat.toDigits 10 n ++ "de".toList ++ ri), shard.length ≤ 200) ∧
      totalAddresses ((List.range' 1 9).map fun n => ["0".toList, "1".toList].map fun ri =>
        "abc".toList ++ Nat.toDigits 10 n ++ "de".toList ++ ri) ≤ 200 * 200 :=
  C6_shard_and_replica_bounds "abc{1..9}de{0|1}".toList _ (by decide)

/-- C7 as stated fails: for the descriptor `|` the shard pass gives the one token `|`,
whose replica pass returns no replica, and the construction succeeds with a name table
that holds one empty shard; the same happens for the descriptor `{|}`. -/
theorem C7_counterexample_empty_shard :
    expand "|".toList ',' = .ok ["|".toList] ∧ expand "|".toList '|' = .ok [] ∧
      buildNames "|".toList = .ok [[]] ∧ buildNames "{|}".toList = .ok [[]] := by
  decide

/-- C7 (amended). The construction does not reject empty shards: whenever it succeeds,
the replicas of each shard are exactly the result of the replica pass on its token, and
every shard whose token holds no `|` has at least one replica. -/
theorem C7_shard_without_bar_nonempty (descripton : Str) (shards : List Str)
    (names : List (List Str)) (hs : expand descripton ',' = .ok shards)
    (h : buildNames descripton = .ok names) :
    List.Forall₂ (fun shard replicas =>
      expand shard '|' = .ok replicas ∧ ('|' ∉ shard → replicas ≠ [])) shards names := by
  unfold buildNames at h
  rw [hs] at h
  simp only [] at h
  have hf := replicaPass_ok shards names h
  exact List.Forall₂.imp (fun a b hab => ⟨hab, fun hno => expand_ne_nil a '|' hno b hab⟩) hf

/-- Witness of C7 (amended) at `host1,host2`: two shards of one replica each. -/
theorem C7_shard_without_bar_nonempty_witness :
    List.Forall₂ (fun shard replicas =>
      expand shard '|' = .ok replicas ∧ ('|' ∉ shard → replicas ≠ []))
      ["host1".toList, "host2".toList] [["host1".toList], ["host2".toList]] :=
  C7_shard_without_bar_nonempty "host1,host2".toList ["host1".toList, "host2".toList]
    [["host1".toList], ["host2".toList]] (by decide) (by decide)

/-- C8 as stated fails for a closing brace with no opening brace: outside a group `}` is
an ordinary character, and `a}b` expands to itself with either separator. -/
theorem C8_counterexample_stray_closing_brace :
    expand "a\x7db".toList ',' = .ok ["a\x7db".toList] ∧
      expand "a\x7db".toList '|' = .ok ["a\x7db".toList] := by
  decide

/-- C8 (amended). For `sep` one of `,` and `|` and every text shorter than `2^31`
characters (the brace depth fits the `int` variable `cnt`) that has an opening `{` with
no matching `}`, `expand text sep` fails: it returns an exception of the source and no
list. -/
theorem C8_unmatched_open_brace_fails (sep : Char) (_hsep : sep = ',' ∨ sep = '|')
    (text : Str) (hlen : text.length < 2147483648) (h : UnmatchedOpen text) :
    ∃ e, expand text sep = .error e ∧ e ≠ .outOfFuel :=
  expand_unmatched text sep hlen h

/-- Witness of C8 (amended) at `a{b`, whose brace is never closed. -/
theorem C8_unmatched_open_brace_fails_witness :
    ∃ e, expand "a\x7bb".toList ',' = .error e ∧ e ≠ .outOfFuel :=
  C8_unmatched_open_brace_fails ',' (by decide) "a\x7bb".toList (by decide)
    ⟨"a".toList, "b".toList, by decide, by
      intro k
      cases k with
      | zero => decide
      | succ k => simp⟩

/-- C10. The code at the input of the documentation comment (source line 148): for
`abc{08..10}def` it returns `abc8def`, `abc9def`, `abc10def`, without the leading zero
that the comment and the claim show. -/
theorem C10_leading_zero_not_kept :
    expand "abc{08..10}def".toList ',' =
        .ok ["abc8def".toList, "abc9def".toList, "abc10def".toList] ∧
      expand "abc{08..10}def".toList ',' ≠
        .ok ["abc08def".toList, "abc09def".toList, "abc10def".toList] := by
  decide

/-- C11 as stated fails: on `{x,{1..2}}` the scan of the outer group records the pair of
dots of the nested group, so the outer group is read as a numeric range whose left
number is `x,{1`, and `expand` throws instead of returning `x`, `1`, `2`. -/
theorem C11_counterexample_nested_range :
    expand "{x,{1..2}}".toList ',' = .error .incorrectLeftNumber ∧
      expand "{x,{1..2}}".toList ',' ≠ .ok ["x".toList, "1".toList, "2".toList] := by
  decide

/-- C11 (amended). A pair of dots at any brace depth makes the enclosing group a
numeric range: for `sep` one of `,` and `|`, a literal prefix, any suffix, and a group
whose body has balanced braces and holds a nested `{` followed anywhere later by two
adjacent dots, in a text shorter than `2^31` characters (the brace depth and the index
of the dots fit the `int` variables `cnt` and `last_dot`), `expand` rejects the group
with the "incorrect left number" exception. -/
theorem C11_nested_dots_reject_group (sep : Char) (hsep : sep = ',' ∨ sep = '|')
    (pre post u v : Str) (hpre : '{' ∉ pre ∧ sep ∉ pre) (hbal : Balanced (u ++ '{' :: v))
    (hdots : hasDotPair v = true)
    (hlen : (pre ++ ['{'] ++ (u ++ '{' :: v) ++ ['}'] ++ post).length < 2147483648) :
    expand (pre ++ ['{'] ++ (u ++ '{' :: v) ++ ['}'] ++ post) sep =
      .error .incorrectLeftNumber := by
  have hs2 : sep ≠ '}' := by rcases hsep with h | h <;> rw [h] <;> decide
  have hd : pre ++ ['{'] ++ (u ++ '{' :: v) ++ ['}'] ++ post =
      pre ++ ('{' :: ((u ++ '{' :: v) ++ ('}' :: post))) := by simp
  rw [hd]
  exact expand_nested_dots sep hs2 pre post u v hpre hbal hdots (by
    simp only [List.length_append, List.length_cons, List.length_nil] at hlen
    omega)

/-- Witness of C11 (amended) at `{x,{1..2}}`. -/
theorem C11_nested_dots_reject_group_witness :
    expand "{x,{1..2}}".toList ',' = .error .incorrectLeftNumber :=
  C11_nested_dots_reject_group ',' (by decide) [] [] "x,".toList "1..2\x7d".toList
    (by decide) (by decide) (by decide) (by decide)

/-- C12. Whenever the function node has not exactly one child, or its one child is an
argument list that has not exactly three elements, `execute` throws the arity error
`NUMBER_OF_ARGUMENTS_DOESNT_MATCH`, whatever the arguments are and whatever the
collaborators would do: the descriptor is not parsed. -/
theorem C12_arity_error {κ ε τ : Type} (newCluster : List (List Str) → Except ε κ)
    (remote : κ → Str → Except ε (List Block)) (getType : Str → τ)
    (ast_function : ASTFunction) (cluster : Option κ)
    (h : ast_function.children.length ≠ 1 ∨
      ∃ args, ast_function.children = [.expressionList args] ∧ args.length ≠ 3) :
    (execute newCluster remote getType ast_function cluster).result =
      .error .numberOfArgumentsDoesntMatch := by
  unfold execute
  rcases h with h | ⟨args, h1, h2⟩
  · rw [if_pos h]
  · rw [h1]
    simp only [List.length_singleton, ne_eq, not_true_eq_false, if_false]
    rw [if_pos h2]

/-- Witness of C12: two inner arguments, the first a descriptor with an unclosed brace,
give the arity error. -/
theorem C12_arity_error_witness :
    (execute (κ := List (List Str)) (ε := Unit) (τ := Str) (fun names => .ok names)
      (fun _ _ => .ok []) id
      ⟨[.expressionList [.literal (.string "a\x7bb".toList),
        .identifier "db".toList .Column]]⟩ none).result =
      .error .numberOfArgumentsDoesntMatch :=
  C12_arity_error _ _ _ _ _
    (Or.inr ⟨[.literal (.string "a\x7bb".toList), .identifier "db".toList .Column], rfl,
      by decide⟩)

/-- C13 as stated fails. With a descriptor that has an unclosed brace `execute` throws
the exception of `parseDescription` after it has tagged the two identifiers (lines
54-55 run before line 58), and with a resolution failure it throws after it has also
stored the new cluster (line 62 runs before line 64). -/
theorem C13_counterexample_failure_not_atomic :
    ((execute (κ := List (List Str)) (ε := Unit) (τ := Str) (fun names => .ok names)
        (fun _ _ => .ok []) id
        ⟨[.expressionList [.literal (.string "a\x7bb".toList),
          .identifier "db".toList .Column, .identifier "t".toList .Column]]⟩ none).result =
        .error (.badArguments .incorrectBraceSequence) ∧
      (execute (κ := List (List Str)) (ε := Unit) (τ := Str) (fun names => .ok names)
        (fun _ _ => .ok []) id
        ⟨[.expressionList [.literal (.string "a\x7bb".toList),
          .identifier "db".toList .Column, .identifier "t".toList .Column]]⟩ none).ast =
        ⟨[.expressionList [.literal (.string "a\x7bb".toList),
          .identifier "db".toList .Database, .identifier "t".toList .Table]]⟩) ∧
    ((execute (κ := List (List Str)) (ε := Unit) (τ := Str) (fun names => .ok names)
        (fun _ _ => .error ()) id
        ⟨[.expressionList [.literal (.string "host1".toList),
          .identifier "db".toList .Column, .identifier "t".toList .Column]]⟩ none).result =
        .error (.resolution ()) ∧
      (execute (κ := List (List Str)) (ε := Unit) (τ := Str) (fun names => .ok names)
        (fun _ _ => .error ()) id
        ⟨[.expressionList [.literal (.string "host1".toList),
          .identifier "db".toList .Column, .identifier "t".toList .Column]]⟩ none).cluster =
        some [["host1".toList]]) := by
  decide

/-- C13 (amended). When `execute` fails, what it leaves behind depends on where it
failed. On an arity error, a node of the wrong class or a literal of the wrong type the
function node and the stored cluster are unchanged. On an exception of the parser or of
the `Cluster` constructor the arguments are a string literal and two identifiers, the
stored cluster is unchanged, and the function node is left with its two identifiers
tagged `Database` and `Table`, whatever their tags were. On a failure of the schema
resolution the two identifiers are tagged in the same way and the stored cluster is
the cluster that was built from the names of the descriptor. -/
theorem C13_failure_state {κ ε τ : Type} (newCluster : List (List Str) → Except ε κ)
    (remote : κ → Str → Except ε (List Block)) (getType : Str → τ)
    (ast_function : ASTFunction) (cluster : Option κ) (e : ExecError ε)
    (h : (execute newCluster remote getType ast_function cluster).result = .error e) :
    ((e = .numberOfArgumentsDoesntMatch ∨ e = .badCast ∨ e = .badGet) →
        (execute newCluster remote getType ast_function cluster).ast = ast_function ∧
        (execute newCluster remote getType ast_function cluster).cluster = cluster) ∧
      (((∃ p, e = .badArguments p) ∨ ∃ cause, e = .clusterConstruction cause) →
        ∃ descripton remote_database k1 remote_table k2,
          ast_function = ⟨[.expressionList [.literal (.string descripton),
            .identifier remote_database k1, .identifier remote_table k2]]⟩ ∧
          (execute newCluster remote getType ast_function cluster).ast =
            ⟨[.expressionList [.literal (.string descripton),
              .identifier remote_database .Database, .identifier remote_table .Table]]⟩ ∧
          (execute newCluster remote getType ast_function cluster).cluster = cluster ∧
          ((∃ p, e = .badArguments p ∧ buildNames descripton = .error p) ∨
            ∃ names cause, e = .clusterConstruction cause ∧
              buildNames descripton = .ok names ∧ newCluster names = .error cause)) ∧
      (((∃ cause, e = .resolution cause) ∨ e = .rowOutOfRange) →
        ∃ descripton remote_database k1 remote_table k2 names cl,
          ast_function = ⟨[.expressionList [.literal (.string descripton),
            .identifier remote_database k1, .identifier remote_table k2]]⟩ ∧
          (execute newCluster remote getType ast_function cluster).ast =
            ⟨[.expressionList [.literal (.string descripton),
              .identifier remote_database .Database, .identifier remote_table .Table]]⟩ ∧
          buildNames descripton = .ok names ∧ newCluster names = .ok cl ∧
          chooseColumns remote getType cl remote_database remote_table = .error e ∧
          (execute newCluster remote getType ast_function cluster).cluster = some cl) :=
  execute_failure_state newCluster remote getType ast_function cluster e h

/-- Witness of C13 (amended): the arity error of an invocation with two inner arguments
leaves the function node and the stored cluster as they were; the grammar error of the
descriptor `a{b` leaves the two identifiers tagged `Database` and `Table` and the stored
cluster as it was; a failure of the resolution for the descriptor `host1` leaves the
identifiers tagged and a new cluster stored. -/
theorem C13_failure_state_witness :
    ((execute (κ := List (List Str)) (ε := Unit) (τ := Str) (fun names => .ok names)
          (fun _ _ => .ok []) id
          ⟨[.expressionList [.literal (.string "host1".toList),
            .identifier "db".toList .Column]]⟩ none).ast =
          ⟨[.expressionList [.literal (.string "host1".toList),
            .identifier "db".toList .Column]]⟩ ∧
        (execute (κ := List (List Str)) (ε := Unit) (τ := Str) (fun names => .ok names)
          (fun _ _ => .ok []) id
          ⟨[.expressionList [.literal (.string "host1".toList),
            .identifier "db".toList .Column]]⟩ none).cluster = none) ∧
      ((execute (κ := List (List Str)) (ε := Unit) (τ := Str) (fun names => .ok names)
          (fun _ _ => .ok []) id
          ⟨[.expressionList [.literal (.string "a\x7bb".toList),
            .identifier "db".toList .Column, .identifier "t".toList .Column]]⟩ none).ast =
          ⟨[.expressionList [.literal (.string "a\x7bb".toList),
            .identifier "db".toList .Database, .identifier "t".toList .Table]]⟩ ∧
        (execute (κ := List (List Str)) (ε := Unit) (τ := Str) (fun names => .ok names)
          (fun _ _ => .ok []) id
          ⟨[.expressionList [.literal (.string "a\x7bb".toList),
            .identifier "db".toList .Column, .identifier "t".toList .Column]]⟩
          none).cluster = none) ∧
      ((execute (κ := List (List Str)) (ε := Unit) (τ := Str) (fun names => .ok names)
          (fun _ _ => .error ()) id
          ⟨[.expressionList [.literal (.string "host1".toList),
            .identifier "db".toList .Column, .identifier "t".toList .Column]]⟩ none).ast =
          ⟨[.expressionList [.literal (.string "host1".toList),
            .identifier "db".toList .Database, .identifier "t".toList .Table]]⟩ ∧
        ∃ cl, (execute (κ := List (List Str)) (ε := Unit) (τ := Str) (fun names => .ok names)
          (fun _ _ => .error ()) id
          ⟨[.expressionList [.literal (.string "host1".toList),
            .identifier "db".toList .Column, .identifier "t".toList .Column]]⟩
          none).cluster = some cl) := by
  refine ⟨?_, ?_, ?_⟩
  · exact (C13_failure_state (κ := List (List Str)) (ε := Unit) (τ := Str)
      (fun names => .ok names) (fun _ _ => .ok []) id
      ⟨[.expressionList [.literal (.string "host1".toList),
        .identifier "db".toList .Column]]⟩ none .numberOfArgumentsDoesntMatch
      (by decide)).1 (Or.inl rfl)
  · obtain ⟨d, db, k1, tbl, k2, h1, h2, h3, _⟩ :=
      (C13_failure_state (κ := List (List Str)) (ε := Unit) (τ := Str)
        (fun names => .ok names) (fun _ _ => .ok []) id
        ⟨[.expressionList [.literal (.string "a\x7bb".toList),
          .identifier "db".toList .Column, .identifier "t".toList .Column]]⟩ none
        (.badArguments .incorrectBraceSequence) (by decide)).2.1 (Or.inl ⟨_, rfl⟩)
    cases h1
    exact ⟨h2, h3⟩
  · obtain ⟨d, db, k1, tbl, k2, names, cl, h1, h2, _, _, _, h3⟩ :=
      (C13_failure_state (κ := List (List Str)) (ε := Unit) (τ := Str)
        (fun names => .ok names) (fun _ _ => .error ()) id
        ⟨[.expressionList [.literal (.string "host1".toList),
          .identifier "db".toList .Column, .identifier "t".toList .Column]]⟩ none
        (.resolution ()) (by decide)).2.2 (Or.inl ⟨_, rfl⟩)
    cases h1
    exact ⟨h2, cl, h3⟩

/-- C14. For every response made of blocks whose columns "name" and "type" have the
same length, `chooseColumns` returns without error one descriptor for each row, in the
order of the blocks and of the rows inside a block, the descriptor of a row pairing its
name with the data type of its type name; a response without rows gives the empty
schema. -/
theorem C14_chooseColumns_rows {κ ε τ : Type} (remote : κ → Str → Except ε (List Block))
    (getType : Str → τ) (cluster : κ) (database table : Str) (blocks : List Block)
    (hremote : remote cluster ("DESC TABLE ".toList ++ database ++ ".".toList ++ table) =
      .ok blocks)
    (hcols : ∀ b ∈ blocks, b.name.length = b.type.length) :
    chooseColumns remote getType cluster database table =
        .ok (blocks.flatMap fun b => List.zipWith (fun n t => (n, getType t)) b.name b.type) ∧
      (blocks.flatMap fun b =>
        List.zipWith (fun n t => (n, getType t)) b.name b.type).length =
        (blocks.map fun b => b.name.length).sum ∧
      ((∀ b ∈ blocks, b.name = []) →
        chooseColumns remote getType cluster database table = .ok []) := by
  have hmain : chooseColumns remote getType cluster database table =
      .ok (blocks.flatMap fun b => List.zipWith (fun n t => (n, getType t)) b.name b.type) := by
    unfold chooseColumns
    simp only [hremote]
    rw [readBlocks_ok getType blocks [] hcols]
    simp
  refine ⟨hmain, ?_, ?_⟩
  · clear hmain hremote
    induction blocks with
    | nil => simp
    | cons b rest ih =>
      have h1 := hcols b (by simp)
      simp only [List.flatMap_cons, List.length_append, List.length_zipWith, List.map_cons,
        List.sum_cons, ih (fun x hx => hcols x (List.mem_cons_of_mem _ hx))]
      omega
  · intro hempty
    rw [hmain]
    congr 1
    clear hmain hremote hcols
    induction blocks with
    | nil => simp
    | cons b rest ih =>
      simp only [List.flatMap_cons, hempty b (by simp), List.zipWith_nil_left,
        List.nil_append]
      exact ih (fun x hx => hempty x (List.mem_cons_of_mem _ hx))

/-- Witness of C14: two blocks of two rows and one row give three descriptors in the
order of arrival. -/
theorem C14_chooseColumns_rows_witness :
    chooseColumns (κ := Unit) (ε := Unit) (τ := Str)
        (fun _ _ => .ok [⟨["a".toList, "b".toList], ["UInt8".toList, "String".toList]⟩,
          ⟨["c".toList], ["Date".toList]⟩]) id () "db".toList "t".toList =
        .ok [("a".toList, "UInt8".toList), ("b".toList, "String".toList),
          ("c".toList, "Date".toList)] ∧
      [("a".toList, "UInt8".toList), ("b".toList, "String".toList),
          ("c".toList, "Date".toList)].length = [2, 1].sum ∧
      ((∀ b ∈ [(⟨["a".toList, "b".toList], ["UInt8".toList, "String".toList]⟩ : Block),
          ⟨["c".toList], ["Date".toList]⟩], b.name = []) →
        chooseColumns (κ := Unit) (ε := Unit) (τ := Str)
          (fun _ _ => .ok [⟨["a".toList, "b".toList], ["UInt8".toList, "String".toList]⟩,
            ⟨["c".toList], ["Date".toList]⟩]) id () "db".toList "t".toList = .ok []) :=
  C14_chooseColumns_rows (κ := Unit) (ε := Unit) (τ := Str)
    (fun _ _ => .ok [⟨["a".toList, "b".toList], ["UInt8".toList, "String".toList]⟩,
      ⟨["c".toList], ["Date".toList]⟩]) id () "db".toList "t".toList
    [⟨["a".toList, "b".toList], ["UInt8".toList, "String".toList]⟩,
      ⟨["c".toList], ["Date".toList]⟩] rfl (by decide)

/-- C15. Cartesian append, for the lists that `append` can be called with (the product
of their sizes is a `size_t` value, below `2^64`; `parseDescription`, its only caller,
passes lists of at most 200 entries): `append to what` leaves `to` unchanged when `what`
is empty and gives `what` when `to` is empty; when both are non-empty it fails if and
only if the product of their sizes exceeds 200, and when it succeeds the new `to` has
`|to| * |what|` entries, the one at index `i * |what| + j` being `to[i] ++ what[j]`. -/
theorem C15_cartesian_append (to_ what : List Str)
    (hsize : to_.length * what.length < 2 ^ 64) :
    (what = [] → append to_ what = .ok to_) ∧
      (to_ = [] → append to_ what = .ok what) ∧
      (to_ ≠ [] → what ≠ [] →
        ((∃ e, append to_ what = .error e) ↔ to_.length * what.length > 200) ∧
        ∀ out, append to_ what = .ok out →
          out.length = to_.length * what.length ∧
          ∀ (i j : Nat) (hi : i < to_.length) (hj : j < what.length),
            out[i * what.length + j]? = some (to_[i] ++ what[j])) := by
  refine ⟨?_, ?_, ?_⟩
  · intro h
    subst h
    simp [append]
  · intro h
    subst h
    cases what <;> simp [append]
  · intro h1 h2
    have hmod : (what.length * to_.length) % SIZE_MOD = to_.length * what.length := by
      unfold SIZE_MOD
      rw [Nat.mul_comm]
      norm_num at hsize
      exact Nat.mod_eq_of_lt hsize
    rw [append_nonempty to_ what h1 h2, hmod]
    by_cases hbig : to_.length * what.length > MAX_ADDRESSES
    · rw [if_pos hbig]
      refine ⟨⟨fun _ => hbig, fun _ => ⟨_, rfl⟩⟩, ?_⟩
      intro out hout
      cases hout
    · rw [if_neg hbig]
      refine ⟨⟨fun ⟨e, he⟩ => (by cases he), fun h => absurd h hbig⟩, ?_⟩
      intro out hout
      cases hout
      exact ⟨flatMap_map_length _ what to_, fun i j hi hj =>
        flatMap_map_getElem? (fun a b => a ++ b) what to_ i j hi hj⟩

/-- Witness of C15: `[a, b]` times `[x, y]`. -/
theorem C15_cartesian_append_witness :
    (["x".toList, "y".toList] = [] →
        append ["a".toList, "b".toList] ["x".toList, "y".toList] =
          .ok ["a".toList, "b".toList]) ∧
      (["a".toList, "b".toList] = [] →
        append ["a".toList, "b".toList] ["x".toList, "y".toList] =
          .ok ["x".toList, "y".toList]) ∧
      (["a".toList, "b".toList] ≠ [] → ["x".toList, "y".toList] ≠ [] →
        ((∃ e, append ["a".toList, "b".toList] ["x".toList, "y".toList] = .error e) ↔
          ["a".toList, "b".toList].length * ["x".toList, "y".toList].length > 200) ∧
        ∀ out, append ["a".toList, "b".toList] ["x".toList, "y".toList] = .ok out →
          out.length = ["a".toList, "b".toList].length * ["x".toList, "y".toList].length ∧
          ∀ (i j : Nat) (hi : i < ["a".toList, "b".toList].length)
            (hj : j < ["x".toList, "y".toList].length),
            out[i * ["x".toList, "y".toList].length + j]? =
              some (["a".toList, "b".toList][i] ++ ["x".toList, "y".toList][j])) :=
  C15_cartesian_append ["a".toList, "b".toList] ["x".toList, "y".toList] (by decide)

/-- C16. For every text and every range `l ≤ r ≤ length`, `parseId` succeeds exactly
when every character of the range is a decimal digit and the number they denote is at
most `10^15`; its result is then that number; and every sum `res * 10 + digit` that the
loop computes is below `2^64`. -/
theorem C16_parseId_exact (description : Str) (l r : Nat) (hlr : l ≤ r)
    (hr : r ≤ description.length) :
    ((∃ n, parseId description l r = some n) ↔
        (allDigits (substr description l (r - l)) ∧
          digitsValue (substr description l (r - l)) ≤ 10 ^ 15)) ∧
      (∀ n, parseId description l r = some n →
        n = digitsValue (substr description l (r - l))) ∧
      (∀ v ∈ parseIdSteps description (r - l) l 0, v < 2 ^ 64) := by
  have key := parseId_at description l r hlr hr
  refine ⟨?_, ?_, ?_⟩
  · by_cases hc : allDigits (substr description l (r - l)) ∧
        digitsValue (substr description l (r - l)) ≤ 10 ^ 15
    · rw [if_pos hc] at key
      exact ⟨fun _ => hc, fun _ => ⟨_, key⟩⟩
    · rw [if_neg hc] at key
      constructor
      · intro ⟨n, hn⟩
        rw [key] at hn
        cases hn
      · intro h
        exact absurd h hc
  · intro n hn
    rw [key] at hn
    split at hn
    · cases hn
      rfl
    · cases hn
  · exact parseIdSteps_lt description (r - l) l 0 (by norm_num)

/-- Witness of C16 at the digits `123` of `x123y`. -/
theorem C16_parseId_exact_witness :
    ((∃ n, parseId "x123y".toList 1 4 = some n) ↔
        (allDigits (substr "x123y".toList 1 (4 - 1)) ∧
          digitsValue (substr "x123y".toList 1 (4 - 1)) ≤ 10 ^ 15)) ∧
      (∀ n, parseId "x123y".toList 1 4 = some n →
        n = digitsValue (substr "x123y".toList 1 (4 - 1))) ∧
      (∀ v ∈ parseIdSteps "x123y".toList (4 - 1) 1 0, v < 2 ^ 64) :=
  C16_parseId_exact "x123y".toList 1 4 (by decide) (by decide)

/-- C18. The code at the failing input: the shard pass on the descriptor `,` succeeds
with an empty list of shards, so `names` is empty when it is handed to the `Cluster`
constructor and `chooseColumns` takes `*cluster.pools.begin()` of it. -/
theorem C18_shard_list_can_be_empty :
    expand ",".toList ',' = .ok [] ∧ buildNames ",".toList = .ok [] := by
  decide

/-- C19. For every non-empty text and every separator other than `{` and `}`, no element
of a list that `expand` returns is the empty string; the empty text yields `[""]`. -/
theorem C19_no_empty_element (text : Str) (sep : Char) (hne : text ≠ [])
    (_h1 : sep ≠ '{') (h2 : sep ≠ '}') (out : List Str) (h : expand text sep = .ok out) :
    (∀ x ∈ out, x ≠ []) ∧ expand [] sep = .ok [[]] := by
  constructor
  · exact parseDescription_all_ne text sep _h1 h2 text.length (le_refl _) 0
      (List.length_pos.mpr hne) out h
  · rfl

/-- Witness of C19: the empty alternative of `{,a}b` contributes no entry, the result
is `ab` alone. -/
theorem C19_no_empty_element_witness :
    (∀ x ∈ ["ab".toList], x ≠ []) ∧ expand [] ',' = .ok [[]] :=
  C19_no_empty_element "{,a}b".toList ',' (by decide) (by decide) (by decide)
    ["ab".toList] (by decide)

/-- C20. An empty left boundary is the number 0: for `sep` one of `,` and `|` and every
digit string `R` (the empty one included) denoting `n ≤ 199`,
`expand ("{.." ++ R ++ "}") sep` is `["0", "1", ..., dec n]`. -/
theorem C20_empty_left_boundary (sep : Char) (hsep : sep = ',' ∨ sep = '|') (R : Str)
    (hR : allDigits R) (hn : digitsValue R ≤ 199) :
    expand (['{', '.', '.'] ++ R ++ ['}']) sep =
      .ok ((List.range' 0 (digitsValue R + 1)).map fun k => Nat.toDigits 10 k) := by
  have hs2 : sep ≠ '}' := by rcases hsep with h | h <;> rw [h] <;> decide
  have hd : ['{', '.', '.'] ++ R ++ ['}'] = [] ++ ('{' :: (([] ++ '.' :: '.' :: R) ++ ('}' :: []))) := by
    simp
  have h0 : digitsValue [] = 0 := rfl
  have hbuf := groupBuffer_range sep [] [] R [] (by intro c hc; cases hc) hR
    (by rw [h0]; omega) (by omega) (by rw [h0]; unfold MAX_ADDRESSES; omega) (by decide)
  rw [h0] at hbuf
  have hbr : ∀ c, isdigit c = false → c ≠ '.' → c ∉ ([] ++ '.' :: '.' :: R) := by
    intro c hc hne hm
    simp only [List.nil_append, List.mem_cons] at hm
    rcases hm with h | h | h
    · exact hne h
    · exact hne h
    · exact not_mem_of_allDigits R hR c hc h
  rw [hd, expand_single_group sep hs2 [] ([] ++ '.' :: '.' :: R) [] (by simp) (by simp)
    (by simp) (by simp) (hbr '{' (by decide) (by decide)) (hbr '}' (by decide) (by decide))
    _ ?_ ?_ hbuf]
  · simp [List.map_map, Function.comp, toStringUInt64]
  · intro h
    have := congrArg List.length h
    simp at this
  · simp only [List.length_map, List.length_range', MAX_ADDRESSES]
    omega

/-- Witness of C20: `{..3}` gives `0`, `1`, `2`, `3` and `{..}` gives `0`. -/
theorem C20_empty_left_boundary_witness :
    expand "{..3}".toList ',' = .ok ["0".toList, "1".toList, "2".toList, "3".toList] ∧
      expand "{..}".toList ',' = .ok ["0".toList] :=
  ⟨C20_empty_left_boundary ',' (by decide) "3".toList (by decide) (by decide),
    C20_empty_left_boundary ',' (by decide) [] (by decide) (by decide)⟩

end TableFunctionRemote
